import Mathlib

/-!
Verification of the Gomoku engine (`simple_board.py`, `gtp_connection.py`,
`MCTS.py`) against its natural-language specification.

The board is a padded one-dimensional grid exactly as in
`SimpleGoBoard.reset`: `maxpoint = size*size + 3*(size+1)` cells, row `r`
(1-based) starting at `r*NS + 1` with `NS = size + 1`; cells outside the
playable rows are `BORDER`.  Python's mutable `self` is embedded by explicit
state passing: a method that can write to the board is a function
`SimpleGoBoard → α × SimpleGoBoard`; methods that only read are pure
functions.  Machine integers are `Nat` (all indices in the source stay
non-negative: every scan starts from a playable point `p ≥ NS+1` and steps by
at most `NS+1`, so Nat subtraction agrees with Python's integer subtraction on
the states covered by the theorems, all of which assume well-formedness `WF`).
`board_util.py` is not part of the sources; the handful of constants and
helpers it provides are modelled from the spec where used, each marked in its
doc comment.
-/

set_option linter.unusedVariables false
set_option linter.unreachableTactic false
set_option linter.unusedTactic false

namespace Gomoku

/-- Cell constants.  `board_util.py` is not under the sources; the values are
fixed by `simple_board.py` itself: `undo` writes `0` for an emptied cell,
`where1d(self.board == 0)` enumerates empty points, color code `2` selects the
WHITE branch in `check_game_end_move_gomoku`, and the spec's data model lists
the four states EMPTY, BLACK, WHITE, BORDER. -/
def EMPTY : Nat := 0

/-- Color of the first player (code `1` in `solve_cmd`). -/
def BLACK : Nat := 1

/-- Color of the second player (code `2`). -/
def WHITE : Nat := 2

/-- Sentinel color of padding cells. -/
def BORDER : Nat := 3

/-- Modelled from the spec: `GoBoardUtil.opponent` from the missing
`board_util.py`; the play contract flips between the two stone colors, so the
opponent of `BLACK = 1` is `WHITE = 2` and conversely. -/
def opponent (c : Nat) : Nat := 3 - c

/-- Modelled from the spec: `is_black_white(color)` from the missing
`board_util.py`: a color argument is valid iff it is BLACK or WHITE. -/
def isBlackWhite (c : Nat) : Bool := c == BLACK || c == WHITE

/-- Size of the padded one-dimensional array: `size * size + 3 * (size + 1)`
(`SimpleGoBoard.reset`). -/
def maxpoint (size : Nat) : Nat := size * size + 3 * (size + 1)

/-- A point `p` lies on a playable row/column of the padded array:
`p = r * NS + c` with `1 ≤ r ≤ size` and `1 ≤ c ≤ size`, `NS = size + 1`.
This is exactly the set of cells `_initialize_empty_points` fills with
EMPTY. -/
def isPlayable (size p : Nat) : Bool :=
  decide (1 ≤ p / (size + 1)) && decide (p / (size + 1) ≤ size) &&
  decide (1 ≤ p % (size + 1)) && decide (p % (size + 1) ≤ size)

/-- `coord_to_point(row, col, boardsize)` from the missing `board_util.py`,
fixed by `row_start` and `_point_to_coord` in `simple_board.py`:
`point = row * NS + col`. -/
def pt (size r c : Nat) : Nat := r * (size + 1) + c

/-- The board state.  `board` is the padded grid, `liberty_of` the liberty
cache used by the (Go-inherited) legality check; `NULLPOINT` entries are
modelled as `none`. -/
structure SimpleGoBoard where
  size : Nat
  board : List Nat
  current_player : Nat
  ko_recapture : Option Nat
  liberty_of : List (Option Nat)
deriving Repr, DecidableEq

namespace SimpleGoBoard

/-- Row stride `NS = size + 1`. -/
def NS (b : SimpleGoBoard) : Nat := b.size + 1

/-- `get_color` / `self.board[point]`.  Out-of-range reads would raise in
numpy; they do not occur on well-formed boards (the padding ring stops every
scan), and are given the sentinel `BORDER` here. -/
def get (b : SimpleGoBoard) (p : Nat) : Nat := b.board.getD p BORDER

end SimpleGoBoard

/-- Grid contents produced by `reset`: BORDER everywhere except the playable
cells, which are EMPTY. -/
def initialBoard (size : Nat) : List Nat :=
  (List.range (maxpoint size)).map (fun p => if isPlayable size p then EMPTY else BORDER)

/-- `reset(size)` (less the precomputed neighbor table, which is a pure
function of `size`, see `neighborsOf`): empty grid, BLACK to move, no ko,
liberty cache all NULLPOINT. -/
def resetBoard (size : Nat) : SimpleGoBoard :=
  { size := size
    board := initialBoard size
    current_player := BLACK
    ko_recapture := none
    liberty_of := List.replicate (maxpoint size) none }

/-- `play_move_gomoku(point, color)`: if the cell is not EMPTY the move is
rejected and the board untouched; otherwise the stone is placed and
`current_player` becomes `opponent(color)`.  The two `assert`s of the source
(`is_black_white(color)`, `point != PASS`) appear as hypotheses of the
theorems; the `point` argument here is a grid index, never PASS. -/
def playMoveGomoku (b : SimpleGoBoard) (point color : Nat) : Bool × SimpleGoBoard :=
  if b.get point ≠ EMPTY then (false, b)
  else (true, { b with board := b.board.set point color, current_player := opponent color })

/-- `undo(point)`: writes `0` (EMPTY) into the cell, nothing else. -/
def undo (b : SimpleGoBoard) (point : Nat) : SimpleGoBoard :=
  { b with board := b.board.set point EMPTY }

/-- Well-formed board: the grid has the padded length for its size, the size
is in the legal range, playable cells hold EMPTY/BLACK/WHITE and all other
cells hold BORDER.  Every board reachable by `reset` followed by
`play_move_gomoku`/`undo` calls satisfies this. -/
def WF (b : SimpleGoBoard) : Prop :=
  b.board.length = maxpoint b.size ∧ 2 ≤ b.size ∧
  ∀ p, p < b.board.length →
    (isPlayable b.size p = true → b.get p = EMPTY ∨ b.get p = BLACK ∨ b.get p = WHITE) ∧
    (isPlayable b.size p = false → b.get p = BORDER)

instance (b : SimpleGoBoard) : Decidable (WF b) := by
  unfold WF; infer_instance

section ListHelpers

/-- Setting an index to the value it already holds leaves the list unchanged. -/
theorem List.set_getD_self {l : List Nat} {p : Nat} {v d : Nat}
    (h : l.getD p d = v) (hp : p < l.length) : l.set p v = l := by
  induction l generalizing p with
  | nil => simp at hp
  | cons a t ih =>
    cases p with
    | zero => simp_all [List.getD]
    | succ n =>
      simp only [List.set]
      simp only [List.getD_cons_succ] at h
      simp only [List.length_cons, Nat.succ_lt_succ_iff] at hp
      rw [ih h hp]

end ListHelpers

/-! ### Terminal scan (`_point_direction_check_connect_gomoko`,
`point_check_game_end_gomoku`, `check_game_end_gomoku`) -/

/-- First while loop of `_point_direction_check_connect_gomoko`: walk forward
by `d` from `p`, incrementing `count` on each same-color cell, breaking when
the color changes or when the count reaches 5.  The loop always terminates
within `board.length` steps (positions strictly increase and out-of-board
cells read BORDER), so the fuel used at call sites is `board.length`. -/
def connectLoopF (b : SimpleGoBoard) (color p d count : Nat) : Nat → Nat
  | 0 => count
  | fuel + 1 =>
    if b.get (p + d) = color then
      if count + 1 = 5 then count + 1 else connectLoopF b color (p + d) d (count + 1) fuel
    else count

/-- Second while loop (direction `-d`; Nat subtraction agrees with the
source's integer subtraction on well-formed boards, where every step starts
from a playable cell `≥ NS + 1 ≥ d`).  Note that when `count` enters at 5 the
`count == 5` break can no longer fire, so the walk runs to the end of the
run, exactly as in the source. -/
def connectLoopB (b : SimpleGoBoard) (color p d count : Nat) : Nat → Nat
  | 0 => count
  | fuel + 1 =>
    if b.get (p - d) = color then
      if count + 1 = 5 then count + 1 else connectLoopB b color (p - d) d (count + 1) fuel
    else count

/-- `_point_direction_check_connect_gomoko(point, shift)`: bidirectional
capped count starting at 1; reports whether it ends at exactly 5. -/
def pointDirectionCheckConnectGomoko (b : SimpleGoBoard) (point shift : Nat) : Bool :=
  let color := b.get point
  let c1 := connectLoopF b color point shift 1 b.board.length
  let c2 := connectLoopB b color point shift c1 b.board.length
  c2 == 5

/-- `point_check_game_end_gomoku(point)`: the four axes, in source order. -/
def pointCheckGameEndGomoku (b : SimpleGoBoard) (point : Nat) : Bool :=
  pointDirectionCheckConnectGomoko b point 1 ||
  pointDirectionCheckConnectGomoko b point b.NS ||
  pointDirectionCheckConnectGomoko b point (b.NS + 1) ||
  pointDirectionCheckConnectGomoko b point (b.NS - 1)

/-- `where1d(self.board == v)` (modelled from the missing `board_util.py`:
`np.where` returns the matching indices in increasing order). -/
def where1dEq (b : SimpleGoBoard) (v : Nat) : List Nat :=
  (List.range b.board.length).filter (fun p => b.get p == v)

/-- The per-color half of `check_game_end_gomoku`: some stone of color `c`
passes the point check. -/
def anyConnect5 (b : SimpleGoBoard) (c : Nat) : Bool :=
  (where1dEq b c).any (pointCheckGameEndGomoku b)

/-- `check_game_end_gomoku()`: white stones are scanned first, then black;
the first stone that anchors a capped count of 5 decides the result. -/
def checkGameEndGomoku (b : SimpleGoBoard) : Bool × Option Nat :=
  if anyConnect5 b WHITE then (true, some WHITE)
  else if anyConnect5 b BLACK then (true, some BLACK)
  else (false, none)

/-- The four scan axes of the board: horizontal, vertical and the two
diagonals, as strides of the padded array. -/
def dirsOf (b : SimpleGoBoard) : List Nat := [1, b.NS, b.NS + 1, b.NS - 1]

/-- Specification-side notion for C1: the grid contains 5 consecutive cells
of color `c` along one of the four axes. -/
def hasRun5 (b : SimpleGoBoard) (c : Nat) : Prop :=
  ∃ p, p < b.board.length ∧ ∃ d, d ∈ dirsOf b ∧ ∀ i, i ≤ 4 → b.get (p + i * d) = c

instance (b : SimpleGoBoard) (c : Nat) : Decidable (hasRun5 b c) := by
  unfold hasRun5; infer_instance

/-! ### Run lengths and their relation to the capped loops -/

/-- True maximal run length of color `c` forward from `p` (not counting `p`),
capped only by the fuel. -/
def runLenF (b : SimpleGoBoard) (c p d : Nat) : Nat → Nat
  | 0 => 0
  | fuel + 1 => if b.get (p + d) = c then runLenF b c (p + d) d fuel + 1 else 0

/-- True maximal run length of color `c` backward from `p`. -/
def runLenB (b : SimpleGoBoard) (c p d : Nat) : Nat → Nat
  | 0 => 0
  | fuel + 1 => if b.get (p - d) = c then runLenB b c (p - d) d fuel + 1 else 0

theorem runLenF_le (b : SimpleGoBoard) (c p d : Nat) :
    ∀ fuel, runLenF b c p d fuel ≤ fuel := by
  intro fuel
  induction fuel generalizing p with
  | zero => simp [runLenF]
  | succ f ih =>
    simp only [runLenF]
    split
    · exact Nat.succ_le_succ (ih _)
    · exact Nat.zero_le _

theorem runLenB_le (b : SimpleGoBoard) (c p d : Nat) :
    ∀ fuel, runLenB b c p d fuel ≤ fuel := by
  intro fuel
  induction fuel generalizing p with
  | zero => simp [runLenB]
  | succ f ih =>
    simp only [runLenB]
    split
    · exact Nat.succ_le_succ (ih _)
    · exact Nat.zero_le _

/-- The forward capped loop in terms of the true forward run length. -/
theorem connectLoopF_eq_run (b : SimpleGoBoard) (c d : Nat) :
    ∀ fuel p count, connectLoopF b c p d count fuel =
      if count < 5 then min (count + runLenF b c p d fuel) 5
      else count + runLenF b c p d fuel := by
  intro fuel
  induction fuel with
  | zero => intro p count; simp only [connectLoopF, runLenF]; split <;> omega
  | succ f ih =>
    intro p count
    simp only [connectLoopF, runLenF]
    by_cases hcell : b.get (p + d) = c
    · rw [if_pos hcell, if_pos hcell]
      by_cases h5 : count + 1 = 5
      · rw [if_pos h5]
        have : count < 5 := by omega
        rw [if_pos this]
        omega
      · rw [if_neg h5, ih]
        by_cases hlt : count < 5
        · have hlt1 : count + 1 < 5 := by omega
          rw [if_pos hlt1, if_pos hlt]
          omega
        · have hlt1 : ¬ count + 1 < 5 := by omega
          rw [if_neg hlt1, if_neg hlt]
          omega
    · rw [if_neg hcell, if_neg hcell]
      by_cases hlt : count < 5
      · rw [if_pos hlt]; omega
      · rw [if_neg hlt]; omega

/-- The backward capped loop in terms of the true backward run length. -/
theorem connectLoopB_eq_run (b : SimpleGoBoard) (c d : Nat) :
    ∀ fuel p count, connectLoopB b c p d count fuel =
      if count < 5 then min (count + runLenB b c p d fuel) 5
      else count + runLenB b c p d fuel := by
  intro fuel
  induction fuel with
  | zero => intro p count; simp only [connectLoopB, runLenB]; split <;> omega
  | succ f ih =>
    intro p count
    simp only [connectLoopB, runLenB]
    by_cases hcell : b.get (p - d) = c
    · rw [if_pos hcell, if_pos hcell]
      by_cases h5 : count + 1 = 5
      · rw [if_pos h5]
        have : count < 5 := by omega
        rw [if_pos this]
        omega
      · rw [if_neg h5, ih]
        by_cases hlt : count < 5
        · have hlt1 : count + 1 < 5 := by omega
          rw [if_pos hlt1, if_pos hlt]
          omega
        · have hlt1 : ¬ count + 1 < 5 := by omega
          rw [if_neg hlt1, if_neg hlt]
          omega
    · rw [if_neg hcell, if_neg hcell]
      by_cases hlt : count < 5
      · rw [if_pos hlt]; omega
      · rw [if_neg hlt]; omega

/-- The per-point per-direction check is a condition on the two true run
lengths: either the forward run alone reaches 4 and the backward run is
empty, or the forward run is short and the two together reach 4. -/
theorem pdc_iff_runs (b : SimpleGoBoard) (point shift : Nat) :
    pointDirectionCheckConnectGomoko b point shift = true ↔
      ((4 ≤ runLenF b (b.get point) point shift b.board.length ∧
          runLenB b (b.get point) point shift b.board.length = 0) ∨
        (runLenF b (b.get point) point shift b.board.length ≤ 3 ∧
          4 ≤ runLenF b (b.get point) point shift b.board.length +
            runLenB b (b.get point) point shift b.board.length)) := by
  simp only [pointDirectionCheckConnectGomoko, connectLoopF_eq_run, connectLoopB_eq_run,
    beq_iff_eq]
  have h1 : (1 : Nat) < 5 := by omega
  rw [if_pos h1]
  set F := runLenF b (b.get point) point shift b.board.length with hF
  set B := runLenB b (b.get point) point shift b.board.length with hB
  by_cases hge : 4 ≤ F
  · have hmin : min (1 + F) 5 = 5 := by omega
    rw [hmin, if_neg (by omega)]
    omega
  · have hmin : min (1 + F) 5 = 1 + F := by omega
    rw [hmin, if_pos (by omega)]
    omega

/-- Membership characterization of the forward run: the run is at least `k`
iff the first `k` forward cells all have the color. -/
theorem runLenF_ge_iff (b : SimpleGoBoard) (c d : Nat) :
    ∀ fuel p k, k ≤ fuel →
      (k ≤ runLenF b c p d fuel ↔ ∀ i, 1 ≤ i → i ≤ k → b.get (p + i * d) = c) := by
  intro fuel
  induction fuel with
  | zero =>
    intro p k hk
    interval_cases k
    exact iff_of_true (Nat.zero_le _) (by intro i h1 h2; omega)
  | succ f ih =>
    intro p k hk
    cases k with
    | zero => exact iff_of_true (Nat.zero_le _) (by intro i h1 h2; omega)
    | succ j =>
      simp only [runLenF]
      by_cases hcell : b.get (p + d) = c
      · rw [if_pos hcell]
        rw [Nat.succ_le_succ_iff, ih (p + d) j (by omega)]
        constructor
        · intro h i h1 hij
          cases i with
          | zero => omega
          | succ k =>
            cases k with
            | zero => simpa using hcell
            | succ m =>
              have e : p + (m + 1 + 1) * d = p + d + (m + 1) * d := by ring
              rw [e]
              exact h (m + 1) (by omega) (by omega)
        · intro h i h1 hij
          have e : p + (i + 1) * d = p + d + i * d := by ring
          rw [← e]
          exact h (i + 1) (by omega) (by omega)
      · rw [if_neg hcell]
        constructor
        · omega
        · intro h
          exfalso
          exact hcell (by simpa using h 1 (by omega) (by omega))

/-- Membership characterization of the backward run.  The cells are expressed
with Nat subtraction; on well-formed boards these agree with the source's
integer positions (see `bwd_steps_exact`). -/
theorem runLenB_ge_iff (b : SimpleGoBoard) (c d : Nat) :
    ∀ fuel p k, k ≤ fuel →
      (k ≤ runLenB b c p d fuel ↔ ∀ i, 1 ≤ i → i ≤ k → b.get (p - i * d) = c) := by
  intro fuel
  induction fuel with
  | zero =>
    intro p k hk
    interval_cases k
    exact iff_of_true (Nat.zero_le _) (by intro i h1 h2; omega)
  | succ f ih =>
    intro p k hk
    cases k with
    | zero => exact iff_of_true (Nat.zero_le _) (by intro i h1 h2; omega)
    | succ j =>
      simp only [runLenB]
      by_cases hcell : b.get (p - d) = c
      · rw [if_pos hcell]
        rw [Nat.succ_le_succ_iff, ih (p - d) j (by omega)]
        have eshift : ∀ i : Nat, p - d - i * d = p - (i + 1) * d := by
          intro i
          rw [Nat.sub_sub]
          congr 1
          ring
        constructor
        · intro h i h1 hij
          cases i with
          | zero => omega
          | succ k =>
            cases k with
            | zero => simpa using hcell
            | succ m =>
              rw [← eshift (m + 1)]
              exact h (m + 1) (by omega) (by omega)
        · intro h i h1 hij
          rw [eshift i]
          exact h (i + 1) (by omega) (by omega)
      · rw [if_neg hcell]
        constructor
        · omega
        · intro h
          exfalso
          exact hcell (by simpa using h 1 (by omega) (by omega))


/-! ### Geometry of playable cells -/

theorem playable_bounds {size p : Nat} (h : isPlayable size p = true) :
    size + 2 ≤ p ∧ p < maxpoint size := by
  unfold isPlayable at h
  simp only [Bool.and_eq_true, decide_eq_true_eq] at h
  obtain ⟨⟨⟨h1, h2⟩, h3⟩, h4⟩ := h
  have hdm := Nat.div_add_mod p (size + 1)
  have hlo : (size + 1) * 1 ≤ (size + 1) * (p / (size + 1)) :=
    Nat.mul_le_mul_left _ h1
  have hhi : (size + 1) * (p / (size + 1)) ≤ (size + 1) * size :=
    Nat.mul_le_mul_left _ h2
  have hexp : (size + 1) * size = size * size + size := by ring
  unfold maxpoint
  omega

theorem stone_playable {b : SimpleGoBoard} (hb : WF b) {p c : Nat}
    (hc : c = BLACK ∨ c = WHITE) (h : b.get p = c) :
    isPlayable b.size p = true ∧ p < b.board.length := by
  have hcv : c = 1 ∨ c = 2 := hc
  have hlt : p < b.board.length := by
    by_contra hge
    have : b.get p = BORDER := by
      unfold SimpleGoBoard.get
      exact List.getD_eq_default _ _ (by omega)
    rw [this] at h
    unfold BORDER BLACK WHITE at *
    omega
  refine ⟨?_, hlt⟩
  by_contra hnp
  have := (hb.2.2 p hlt).2 (by simpa using hnp)
  rw [this] at h
  unfold BORDER BLACK WHITE at *
  omega

theorem board_len_ge {b : SimpleGoBoard} (hb : WF b) : 13 ≤ b.board.length := by
  rcases hb with ⟨hlen, hsz, _⟩
  have : 4 ≤ b.size * b.size := Nat.mul_le_mul hsz hsz
  rw [hlen]
  unfold maxpoint
  omega

theorem dir_bounds {b : SimpleGoBoard} (hb : WF b) {d : Nat} (hd : d ∈ dirsOf b) :
    1 ≤ d ∧ d ≤ b.size + 2 := by
  have hsz := hb.2.1
  simp only [dirsOf, SimpleGoBoard.NS, List.mem_cons, List.mem_singleton,
    List.not_mem_nil, or_false] at hd
  rcases hd with h | h | h | h <;> omega

/-- Along a backward run of stones, every prefix of steps stays within the
array: Nat subtraction never truncates because every cell of the run is
playable, hence at least `size + 2 ≥ d` above the array start. -/
theorem bwd_mul_le {b : SimpleGoBoard} (hb : WF b) {c p d : Nat}
    (hc : c = BLACK ∨ c = WHITE) (hp : b.size + 2 ≤ p)
    (hd1 : 1 ≤ d) (hd2 : d ≤ b.size + 2) :
    ∀ i, i ≤ runLenB b c p d b.board.length + 1 → i * d ≤ p := by
  have hcells : ∀ j, 1 ≤ j → j ≤ runLenB b c p d b.board.length → b.get (p - j * d) = c :=
    (runLenB_ge_iff b c d b.board.length p _ (runLenB_le b c p d _)).mp (le_refl _)
  intro i
  induction i with
  | zero => intro _; simp
  | succ n ih =>
    intro hle
    have hn : n * d ≤ p := ih (by omega)
    have hq : b.size + 2 ≤ p - n * d := by
      cases n with
      | zero => simpa using hp
      | succ m =>
        have hcell : b.get (p - (m + 1) * d) = c := hcells (m + 1) (by omega) (by omega)
        exact (playable_bounds (stone_playable hb hc hcell).1).1
    have hmul : (n + 1) * d = n * d + d := by ring
    omega

/-- The forward cells of a run, extracted once and for all. -/
theorem fwd_cells (b : SimpleGoBoard) (c p d : Nat) :
    ∀ j, 1 ≤ j → j ≤ runLenF b c p d b.board.length → b.get (p + j * d) = c :=
  (runLenF_ge_iff b c d b.board.length p _ (runLenF_le b c p d _)).mp (le_refl _)

theorem bwd_cells (b : SimpleGoBoard) (c p d : Nat) :
    ∀ j, 1 ≤ j → j ≤ runLenB b c p d b.board.length → b.get (p - j * d) = c :=
  (runLenB_ge_iff b c d b.board.length p _ (runLenB_le b c p d _)).mp (le_refl _)

/-! ### C1: the terminal check finds exactly the 5-runs -/

/-- Soundness half of the per-direction scan: a positive capped count of 5 at
a stone yields an actual window of five consecutive same-color cells. -/
theorem pdc_window {b : SimpleGoBoard} (hb : WF b) {c m d : Nat}
    (hc : c = BLACK ∨ c = WHITE) (hm : b.get m = c) (hd : d ∈ dirsOf b)
    (h : pointDirectionCheckConnectGomoko b m d = true) :
    ∃ p, p < b.board.length ∧ ∀ i, i ≤ 4 → b.get (p + i * d) = c := by
  obtain ⟨hd1, hd2⟩ := dir_bounds hb hd
  have hlen := board_len_ge hb
  have hmlt := (stone_playable hb hc hm).2
  rw [pdc_iff_runs, hm] at h
  set F := runLenF b c m d b.board.length with hF
  set B := runLenB b c m d b.board.length with hB
  rcases h with ⟨h4, h0⟩ | ⟨h3, h4⟩
  · refine ⟨m, hmlt, ?_⟩
    intro i hi
    cases i with
    | zero => simpa using hm
    | succ n =>
      exact fwd_cells b c m d (n + 1) (by omega) (by omega)
  · -- short forward run completed by the backward run
    set k := 4 - F with hk
    have hkB : k ≤ B := by omega
    have hkm : k * d ≤ m :=
      bwd_mul_le hb hc (playable_bounds (stone_playable hb hc hm).1).1 hd1 hd2 k (by omega)
    refine ⟨m - k * d, by omega, ?_⟩
    intro i hi
    by_cases hik : i ≤ k
    · have hsub : (k - i) * d = k * d - i * d := Nat.sub_mul k i d
      have himul : i * d ≤ k * d := Nat.mul_le_mul_right d hik
      have hcell : m - k * d + i * d = m - (k - i) * d := by omega
      rw [hcell]
      rcases Nat.eq_zero_or_pos (k - i) with hz | hpos
      · rw [hz]; simpa using hm
      · exact bwd_cells b c m d (k - i) (by omega) (by omega)
    · have hsub : (i - k) * d = i * d - k * d := Nat.sub_mul i k d
      have himul : k * d ≤ i * d := Nat.mul_le_mul_right d (by omega)
      have hcell : m - k * d + i * d = m + (i - k) * d := by omega
      rw [hcell]
      exact fwd_cells b c m d (i - k) (by omega) (by omega)

/-- Completeness half: a window of five same-color cells makes the scan fire
at the low end of the maximal run containing the window. -/
theorem window_pdc {b : SimpleGoBoard} (hb : WF b) {c w d : Nat}
    (hc : c = BLACK ∨ c = WHITE) (hw : w < b.board.length) (hd : d ∈ dirsOf b)
    (hwin : ∀ i, i ≤ 4 → b.get (w + i * d) = c) :
    ∃ m, b.get m = c ∧ m < b.board.length ∧
      pointDirectionCheckConnectGomoko b m d = true := by
  obtain ⟨hd1, hd2⟩ := dir_bounds hb hd
  have hlen := board_len_ge hb
  have hwc : b.get w = c := by simpa using hwin 0 (by omega)
  set Bw := runLenB b c w d b.board.length with hBw
  have hBwm : Bw * d ≤ w :=
    bwd_mul_le hb hc (playable_bounds (stone_playable hb hc hwc).1).1 hd1 hd2 Bw (by omega)
  have hBlt : Bw < b.board.length := by
    have : Bw ≤ Bw * d := Nat.le_mul_of_pos_right Bw (by omega)
    omega
  set m := w - Bw * d with hm
  have hmc : b.get m = c := by
    rcases Nat.eq_zero_or_pos Bw with hz | hpos
    · rw [hm, hz]; simpa using hwc
    · exact bwd_cells b c w d Bw (by omega) (le_refl _)
  have hmlt : m < b.board.length := by omega
  refine ⟨m, hmc, hmlt, ?_⟩
  rw [pdc_iff_runs, hmc]
  left
  constructor
  · -- forward run from m covers at least 4 cells
    apply (runLenF_ge_iff b c d b.board.length m 4 (by omega)).mpr
    intro i h1 h4
    by_cases hik : i ≤ Bw
    · have hsub : (Bw - i) * d = Bw * d - i * d := Nat.sub_mul Bw i d
      have himul : i * d ≤ Bw * d := Nat.mul_le_mul_right d hik
      have hcell2 : m + i * d = w - (Bw - i) * d := by omega
      rw [hcell2]
      rcases Nat.eq_zero_or_pos (Bw - i) with hz | hpos
      · rw [hz]; simpa using hwc
      · exact bwd_cells b c w d (Bw - i) (by omega) (by omega)
    · have hsub : (i - Bw) * d = i * d - Bw * d := Nat.sub_mul i Bw d
      have himul : Bw * d ≤ i * d := Nat.mul_le_mul_right d (by omega)
      have hcell : m + i * d = w + (i - Bw) * d := by omega
      rw [hcell]
      exact hwin (i - Bw) (by omega)
  · -- the backward run from m is empty: m is the low end of the maximal run
    by_contra hnz
    have hpos : 1 ≤ runLenB b c m d b.board.length := by omega
    have hstep : b.get (m - 1 * d) = c :=
      (runLenB_ge_iff b c d b.board.length m 1 (by omega)).mp hpos 1 (by omega) (by omega)
    -- then the backward run from w would be longer than Bw
    have hnew : Bw + 1 ≤ runLenB b c w d b.board.length := by
      apply (runLenB_ge_iff b c d b.board.length w (Bw + 1) (by omega)).mpr
      intro j h1 hj
      by_cases hjB : j ≤ Bw
      · exact bwd_cells b c w d j h1 hjB
      · have hj1 : j = Bw + 1 := by omega
        subst hj1
        have hsub : (Bw + 1) * d = Bw * d + d := by ring
        have heq : w - (Bw + 1) * d = m - 1 * d := by omega
        rw [heq]
        exact hstep
    omega

/-- A per-direction hit at some axis propagates to the per-point check. -/
theorem pointCheck_of_pdc {b : SimpleGoBoard} {m d : Nat} (hd : d ∈ dirsOf b)
    (h : pointDirectionCheckConnectGomoko b m d = true) :
    pointCheckGameEndGomoku b m = true := by
  simp only [dirsOf, List.mem_cons, List.mem_singleton, List.not_mem_nil, or_false] at hd
  rcases hd with h1 | h1 | h1 | h1 <;>
    (subst h1; simp [pointCheckGameEndGomoku, h])

/-- Per-color characterization of `check_game_end_gomoku`'s stone loop. -/
theorem anyConnect5_iff (b : SimpleGoBoard) (hb : WF b) (c : Nat)
    (hc : c = BLACK ∨ c = WHITE) :
    anyConnect5 b c = true ↔ hasRun5 b c := by
  constructor
  · intro h
    obtain ⟨m, hmem, hchk⟩ := List.any_eq_true.mp h
    have hmlt : m < b.board.length := by
      have := List.mem_filter.mp hmem
      simpa using List.mem_range.mp this.1
    have hmc : b.get m = c := by
      have := (List.mem_filter.mp hmem).2
      simpa using this
    simp only [pointCheckGameEndGomoku, Bool.or_eq_true] at hchk
    have hget : ∀ d, d ∈ dirsOf b → pointDirectionCheckConnectGomoko b m d = true →
        hasRun5 b c := by
      intro d hd hpdc
      obtain ⟨p, hplt, hcells⟩ := pdc_window hb hc hmc hd hpdc
      exact ⟨p, hplt, d, hd, hcells⟩
    rcases hchk with ((h1 | h1) | h1) | h1
    · exact hget 1 (by simp [dirsOf]) h1
    · exact hget b.NS (by simp [dirsOf]) h1
    · exact hget (b.NS + 1) (by simp [dirsOf]) h1
    · exact hget (b.NS - 1) (by simp [dirsOf]) h1
  · rintro ⟨w, hwlt, d, hd, hwin⟩
    obtain ⟨m, hmc, hmlt, hpdc⟩ := window_pdc hb hc hwlt hd hwin
    apply List.any_eq_true.mpr
    refine ⟨m, ?_, pointCheck_of_pdc hd hpdc⟩
    apply List.mem_filter.mpr
    exact ⟨List.mem_range.mpr hmlt, by simpa using hmc⟩

/-- C1: On every well-formed board, `check_game_end_gomoku` reports a finished
game iff some axis through some stone carries five consecutive same-color
cells (the run length capped at 5 by the scan), and the color it returns
alongside is the color of such a run. -/
theorem check_game_end_gomoku_iff (b : SimpleGoBoard) (hb : WF b) :
    ((checkGameEndGomoku b).1 = true ↔ (hasRun5 b BLACK ∨ hasRun5 b WHITE)) ∧
    (∀ c, (checkGameEndGomoku b).2 = some c → hasRun5 b c) := by
  have hW := anyConnect5_iff b hb WHITE (Or.inr rfl)
  have hB := anyConnect5_iff b hb BLACK (Or.inl rfl)
  unfold checkGameEndGomoku
  by_cases hw : anyConnect5 b WHITE = true
  · rw [if_pos hw]
    refine ⟨⟨fun _ => Or.inr (hW.mp hw), fun _ => rfl⟩, ?_⟩
    intro c hcc
    cases hcc
    exact hW.mp hw
  · rw [if_neg hw]
    by_cases hbk : anyConnect5 b BLACK = true
    · rw [if_pos hbk]
      refine ⟨⟨fun _ => Or.inl (hB.mp hbk), fun _ => rfl⟩, ?_⟩
      intro c hcc
      cases hcc
      exact hB.mp hbk
    · rw [if_neg hbk]
      constructor
      · constructor
        · intro h; simp at h
        · intro h
          rcases h with h | h
          · exact absurd (hB.mpr h) hbk
          · exact absurd (hW.mpr h) hw
      · intro c hcc
        simp at hcc

/-- Witness for C1 at a concrete input: the fresh 2×2 board. -/
theorem check_game_end_gomoku_iff_witness :
    ((checkGameEndGomoku (resetBoard 2)).1 = true ↔
      (hasRun5 (resetBoard 2) BLACK ∨ hasRun5 (resetBoard 2) WHITE)) ∧
    (∀ c, (checkGameEndGomoku (resetBoard 2)).2 = some c → hasRun5 (resetBoard 2) c) :=
  check_game_end_gomoku_iff (resetBoard 2) (by decide)

/-- C3: For every board and every in-range point whose cell is not EMPTY,
`play_move_gomoku` returns `false` and leaves every cell of the grid and
`current_player` exactly as they were (in fact the whole state is
untouched).  The color hypothesis reflects the `assert is_black_white(color)`
at the head of the source. -/
theorem play_occupied_rejected (b : SimpleGoBoard) (p c : Nat)
    (hc : isBlackWhite c = true) (hp : p < b.board.length) (h : b.get p ≠ EMPTY) :
    (playMoveGomoku b p c).1 = false ∧ (playMoveGomoku b p c).2 = b := by
  unfold playMoveGomoku
  rw [if_pos h]
  exact ⟨rfl, rfl⟩

/-- Witness for C3 at a concrete input: the point `pt 2 1 1` of a 2×2 board
with a BLACK stone already there. -/
theorem play_occupied_rejected_witness :
    (isBlackWhite WHITE = true ∧ pt 2 1 1 < (undo (resetBoard 2) 0).board.length) ∧
    (playMoveGomoku
        ((playMoveGomoku (resetBoard 2) (pt 2 1 1) BLACK).2) (pt 2 1 1) WHITE).1 = false := by
  refine ⟨⟨by decide, by decide⟩, ?_⟩
  exact (play_occupied_rejected ((playMoveGomoku (resetBoard 2) (pt 2 1 1) BLACK).2)
    (pt 2 1 1) WHITE (by decide) (by decide) (by decide)).1

/-! ### C4: play then undo -/

/-- C4 as stated is false: on an occupied point the play is rejected without
mutation, but `undo` still blanks the cell, so the prior grid is not
restored.  Concretely: put a BLACK stone on `pt 2 1 1` of a 2×2 board, then
play WHITE there (rejected) and undo; the cell ends EMPTY, not BLACK. -/
theorem play_undo_counterexample :
    ((undo (playMoveGomoku ((playMoveGomoku (resetBoard 2) (pt 2 1 1) BLACK).2)
        (pt 2 1 1) WHITE).2 (pt 2 1 1)).board ≠
      ((playMoveGomoku (resetBoard 2) (pt 2 1 1) BLACK).2).board) := by
  decide

/-- C4 amended: for every board, every point whose cell is EMPTY (so that the
play succeeds) and every valid color, playing then undoing that point
restores the exact prior grid contents (every cell equal to its value before
the play). -/
theorem play_undo_restores (b : SimpleGoBoard) (p c : Nat)
    (hc : isBlackWhite c = true) (hp : p < b.board.length) (h : b.get p = EMPTY) :
    (undo (playMoveGomoku b p c).2 p).board = b.board := by
  unfold playMoveGomoku
  rw [if_neg (by simp [h])]
  unfold undo
  simp only [List.set_set]
  exact List.set_getD_self h hp

/-- Witness for C4's amended theorem at a concrete input. -/
theorem play_undo_restores_witness :
    (isBlackWhite BLACK = true ∧ pt 2 1 1 < (resetBoard 2).board.length ∧
      (resetBoard 2).get (pt 2 1 1) = EMPTY) ∧
    (undo (playMoveGomoku (resetBoard 2) (pt 2 1 1) BLACK).2 (pt 2 1 1)).board =
      (resetBoard 2).board :=
  ⟨⟨by decide, by decide, by decide⟩,
    play_undo_restores (resetBoard 2) (pt 2 1 1) BLACK (by decide) (by decide) (by decide)⟩

/-! ### C9: current_player after a successful play -/

/-- C9 as stated is false: `play_move_gomoku` sets `current_player` to the
opponent of its color argument, not of the previous `current_player`.  On a
fresh 2×2 board (`current_player = BLACK`), playing WHITE succeeds yet leaves
`current_player = BLACK`, equal to its prior value instead of flipped. -/
theorem play_flip_counterexample :
    (playMoveGomoku (resetBoard 2) (pt 2 1 1) WHITE).1 = true ∧
    (playMoveGomoku (resetBoard 2) (pt 2 1 1) WHITE).2.current_player =
      (resetBoard 2).current_player ∧
    (playMoveGomoku (resetBoard 2) (pt 2 1 1) WHITE).2.current_player ≠
      opponent ((resetBoard 2).current_player) := by
  refine ⟨by decide, by decide, by decide⟩

/-- C9 amended: after every successful `play_move_gomoku`, `current_player`
equals the opponent of the color argument of the call; in particular it flips
relative to its prior value exactly when the move was played by the player to
move. -/
theorem play_sets_player (b : SimpleGoBoard) (p c : Nat)
    (hc : isBlackWhite c = true) (h : (playMoveGomoku b p c).1 = true) :
    (playMoveGomoku b p c).2.current_player = opponent c := by
  unfold playMoveGomoku at *
  by_cases hcell : b.get p ≠ EMPTY
  · rw [if_pos hcell] at h; simp at h
  · rw [if_neg hcell]

/-- Witness for C9's amended theorem at a concrete input. -/
theorem play_sets_player_witness :
    (isBlackWhite WHITE = true ∧ (playMoveGomoku (resetBoard 2) (pt 2 1 1) WHITE).1 = true) ∧
    (playMoveGomoku (resetBoard 2) (pt 2 1 1) WHITE).2.current_player = opponent WHITE :=
  ⟨⟨by decide, by decide⟩,
    play_sets_player (resetBoard 2) (pt 2 1 1) WHITE (by decide) (by decide)⟩

/-! ### `straight_check` / `final_check` / `open_four` / `block_open_four` -/

/-- Forward while loop of `straight_check`: returns how many same-color cells
follow `p` in direction `d` and whether the cell that broke the run is
EMPTY. -/
def straightF (b : SimpleGoBoard) (color p d : Nat) : Nat → Nat × Bool
  | 0 => (0, false)
  | fuel + 1 =>
    if b.get (p + d) = color then
      ((straightF b color (p + d) d fuel).1 + 1, (straightF b color (p + d) d fuel).2)
    else (0, b.get (p + d) == EMPTY)

/-- Backward while loop of `straight_check`. -/
def straightB (b : SimpleGoBoard) (color p d : Nat) : Nat → Nat × Bool
  | 0 => (0, false)
  | fuel + 1 =>
    if b.get (p - d) = color then
      ((straightB b color (p - d) d fuel).1 + 1, (straightB b color (p - d) d fuel).2)
    else (0, b.get (p - d) == EMPTY)

/-- `final_check(first, second, points, empty, count)`.  The source returns
`True` on the matching branch and falls through (returning `None`, falsy at
the call sites) otherwise, except for the last branch which returns `False`;
both falsy outcomes are `false` here. -/
def final_check (first second : Bool) (points empty count : Nat) : Bool :=
  if first then decide (points ≤ count) && decide (empty = 1)
  else if second then decide (points ≤ count) && decide (empty = 2)
  else decide (points ≤ count)

/-- `straight_check(point, shift, color, points, empty1, empty2)`: count the
run through `point` (counted as 1, as if filled) in both directions, tally
how many of the two break cells are EMPTY, and classify with
`final_check`. -/
def straight_check (b : SimpleGoBoard) (point shift color points : Nat)
    (empty1 empty2 : Bool) : Bool :=
  final_check empty1 empty2 points
    ((if (straightF b color point shift b.board.length).2 then 1 else 0) +
      (if (straightB b color point shift b.board.length).2 then 1 else 0))
    (1 + (straightF b color point shift b.board.length).1 +
      (straightB b color point shift b.board.length).1)

/-- `open_four(color)`: the empty points passing `straight_check` with
`points = 4, empty1 = False, empty2 = True` in some direction (the `elif`
chain of the source appends a matching point exactly once, in scan order,
which is what `filter` over the ordered empty list produces). -/
def open_four (b : SimpleGoBoard) (color : Nat) : List Nat :=
  (where1dEq b 0).filter (fun point =>
    straight_check b point 1 color 4 false true ||
    straight_check b point b.NS color 4 false true ||
    straight_check b point (b.NS + 1) color 4 false true ||
    straight_check b point (b.NS - 1) color 4 false true)

/-- `block_open_four(color)`: three groups of checks against the opponent
color; each group's `elif` chain appends the point at most once and the
`not in found_points` guards prevent duplicates, so membership is the
disjunction of the twelve checks. -/
def block_open_four (b : SimpleGoBoard) (color : Nat) : List Nat :=
  (where1dEq b 0).filter (fun point =>
    (straight_check b point 1 (opponent color) 4 true false ||
      straight_check b point b.NS (opponent color) 4 true false ||
      straight_check b point (b.NS + 1) (opponent color) 4 true false ||
      straight_check b point (b.NS - 1) (opponent color) 4 true false) ||
    (straight_check b point 1 (opponent color) 3 true false ||
      straight_check b point b.NS (opponent color) 3 true false ||
      straight_check b point (b.NS + 1) (opponent color) 3 true false ||
      straight_check b point (b.NS - 1) (opponent color) 3 true false) ||
    (straight_check b point 1 (opponent color) 4 false true ||
      straight_check b point b.NS (opponent color) 4 false true ||
      straight_check b point (b.NS + 1) (opponent color) 4 false true ||
      straight_check b point (b.NS - 1) (opponent color) 4 false true))

theorem getD_set_ne {l : List Nat} {p q : Nat} (v d : Nat) (h : p ≠ q) :
    (l.set p v).getD q d = l.getD q d := by
  induction l generalizing p q with
  | nil => simp
  | cons a t ih =>
    cases p with
    | zero =>
      cases q with
      | zero => omega
      | succ m => simp [List.set]
    | succ n =>
      cases q with
      | zero => simp [List.set]
      | succ m =>
        simp only [List.set, List.getD_cons_succ]
        exact ih (by omega)

theorem getD_set_self {l : List Nat} {p : Nat} (v d : Nat) (h : p < l.length) :
    (l.set p v).getD p d = v := by
  induction l generalizing p with
  | nil => simp at h
  | cons a t ih =>
    cases p with
    | zero => simp [List.set, List.getD]
    | succ n =>
      simp only [List.set, List.getD_cons_succ]
      exact ih (by simpa using h)

/-- The board with a stone of color `c` written at `p` ("if filled by
`color`"). -/
def placed (b : SimpleGoBoard) (p c : Nat) : SimpleGoBoard :=
  { b with board := b.board.set p c }

theorem placed_get_ne (b : SimpleGoBoard) {p q : Nat} (c : Nat) (h : q ≠ p) :
    (placed b p c).get q = b.get q := by
  unfold placed SimpleGoBoard.get
  exact getD_set_ne c BORDER (by omega)

theorem placed_get_self (b : SimpleGoBoard) {p : Nat} (c : Nat) (h : p < b.board.length) :
    (placed b p c).get p = c := by
  unfold placed SimpleGoBoard.get
  exact getD_set_self c BORDER h

theorem straightF_fst (b : SimpleGoBoard) (c d : Nat) :
    ∀ fuel p, (straightF b c p d fuel).1 = runLenF b c p d fuel := by
  intro fuel
  induction fuel with
  | zero => intro p; rfl
  | succ f ih =>
    intro p
    simp only [straightF, runLenF]
    split
    · simp [ih]
    · rfl

theorem straightB_fst (b : SimpleGoBoard) (c d : Nat) :
    ∀ fuel p, (straightB b c p d fuel).1 = runLenB b c p d fuel := by
  intro fuel
  induction fuel with
  | zero => intro p; rfl
  | succ f ih =>
    intro p
    simp only [straightB, runLenB]
    split
    · simp [ih]
    · rfl

theorem straightF_snd (b : SimpleGoBoard) (c d : Nat) :
    ∀ fuel p, runLenF b c p d fuel < fuel →
      (straightF b c p d fuel).2 = (b.get (p + (runLenF b c p d fuel + 1) * d) == EMPTY) := by
  intro fuel
  induction fuel with
  | zero => intro p h; omega
  | succ f ih =>
    intro p h
    by_cases hcell : b.get (p + d) = c
    · have hrun : runLenF b c p d (f + 1) = runLenF b c (p + d) d f + 1 := by
        simp only [runLenF, if_pos hcell]
      have hlt : runLenF b c (p + d) d f < f := by
        rw [hrun] at h; omega
      have e : p + d + (runLenF b c (p + d) d f + 1) * d =
          p + (runLenF b c (p + d) d f + 1 + 1) * d := by ring
      calc (straightF b c p d (f + 1)).2
          = (straightF b c (p + d) d f).2 := by simp only [straightF, if_pos hcell]
        _ = (b.get (p + d + (runLenF b c (p + d) d f + 1) * d) == EMPTY) := ih (p + d) hlt
        _ = (b.get (p + (runLenF b c p d (f + 1) + 1) * d) == EMPTY) := by rw [e, hrun]
    · have hrun : runLenF b c p d (f + 1) = 0 := by
        simp only [runLenF, if_neg hcell]
      have e : p + (0 + 1) * d = p + d := by ring
      calc (straightF b c p d (f + 1)).2
          = (b.get (p + d) == EMPTY) := by simp only [straightF, if_neg hcell]
        _ = (b.get (p + (runLenF b c p d (f + 1) + 1) * d) == EMPTY) := by rw [hrun, e]

theorem straightB_snd (b : SimpleGoBoard) (c d : Nat) :
    ∀ fuel p, runLenB b c p d fuel < fuel →
      (straightB b c p d fuel).2 = (b.get (p - (runLenB b c p d fuel + 1) * d) == EMPTY) := by
  intro fuel
  induction fuel with
  | zero => intro p h; omega
  | succ f ih =>
    intro p h
    by_cases hcell : b.get (p - d) = c
    · have hrun : runLenB b c p d (f + 1) = runLenB b c (p - d) d f + 1 := by
        simp only [runLenB, if_pos hcell]
      have hlt : runLenB b c (p - d) d f < f := by
        rw [hrun] at h; omega
      have e : p - d - (runLenB b c (p - d) d f + 1) * d =
          p - (runLenB b c (p - d) d f + 1 + 1) * d := by
        rw [Nat.sub_sub]
        congr 1
        ring
      calc (straightB b c p d (f + 1)).2
          = (straightB b c (p - d) d f).2 := by simp only [straightB, if_pos hcell]
        _ = (b.get (p - d - (runLenB b c (p - d) d f + 1) * d) == EMPTY) := ih (p - d) hlt
        _ = (b.get (p - (runLenB b c p d (f + 1) + 1) * d) == EMPTY) := by rw [e, hrun]
    · have hrun : runLenB b c p d (f + 1) = 0 := by
        simp only [runLenB, if_neg hcell]
      have e : p - (0 + 1) * d = p - d := by
        congr 1
        ring
      calc (straightB b c p d (f + 1)).2
          = (b.get (p - d) == EMPTY) := by simp only [straightB, if_neg hcell]
        _ = (b.get (p - (runLenB b c p d (f + 1) + 1) * d) == EMPTY) := by rw [hrun, e]

/-- A forward run of stones cannot fill the entire fuel budget
`board.length`: the position would leave the array and read BORDER. -/
theorem runLenF_lt (b : SimpleGoBoard) {c : Nat} (p d : Nat)
    (hc : c = BLACK ∨ c = WHITE) (hd : 1 ≤ d) (hlen : 1 ≤ b.board.length) :
    runLenF b c p d b.board.length < b.board.length := by
  have hle := runLenF_le b c p d b.board.length
  by_contra hge
  have heq : runLenF b c p d b.board.length = b.board.length := by omega
  have hcell : b.get (p + b.board.length * d) = c :=
    fwd_cells b c p d b.board.length (by omega) (by omega)
  have hout : b.board.length ≤ p + b.board.length * d := by
    have : b.board.length * 1 ≤ b.board.length * d := Nat.mul_le_mul_left _ hd
    omega
  have : b.get (p + b.board.length * d) = BORDER := by
    unfold SimpleGoBoard.get
    exact List.getD_eq_default _ _ hout
  rw [this] at hcell
  unfold BORDER BLACK WHITE at *
  omega

/-- A backward run of stones from a playable point is bounded by the point's
index. -/
theorem runLenB_lt (b : SimpleGoBoard) {c p d : Nat} (hb : WF b)
    (hc : c = BLACK ∨ c = WHITE) (hp : b.size + 2 ≤ p) (hplen : p < b.board.length)
    (hd1 : 1 ≤ d) (hd2 : d ≤ b.size + 2) :
    runLenB b c p d b.board.length < b.board.length := by
  have hmul : runLenB b c p d b.board.length * d ≤ p :=
    bwd_mul_le hb hc hp hd1 hd2 _ (by omega)
  have : runLenB b c p d b.board.length ≤ runLenB b c p d b.board.length * d :=
    Nat.le_mul_of_pos_right _ (by omega)
  omega

/-- `straight_check` with `(points, empty1, empty2) = (4, False, True)` holds
iff the filled run would have length at least 4 and both break cells are
EMPTY. -/
theorem straight_check_char {b : SimpleGoBoard} {c p d : Nat} (hb : WF b)
    (hc : c = BLACK ∨ c = WHITE) (hply : isPlayable b.size p = true)
    (hd1 : 1 ≤ d) (hd2 : d ≤ b.size + 2) :
    (straight_check b p d c 4 false true = true ↔
      (4 ≤ 1 + runLenF b c p d b.board.length + runLenB b c p d b.board.length ∧
        b.get (p + (runLenF b c p d b.board.length + 1) * d) = EMPTY ∧
        b.get (p - (runLenB b c p d b.board.length + 1) * d) = EMPTY)) := by
  have hlen := board_len_ge hb
  obtain ⟨hpge, hplt'⟩ := playable_bounds hply
  have hplt : p < b.board.length := by rw [hb.1] at *; omega
  have hF := runLenF_lt b p d hc hd1 (by omega)
  have hB := runLenB_lt b hb hc hpge hplt hd1 hd2
  unfold straight_check final_check
  rw [straightF_fst, straightB_fst, straightF_snd b c d _ p hF, straightB_snd b c d _ p hB]
  simp only [Bool.false_eq_true, if_false, if_true, Bool.and_eq_true, decide_eq_true_eq]
  by_cases h1 : b.get (p + (runLenF b c p d b.board.length + 1) * d) = EMPTY <;>
    by_cases h2 : b.get (p - (runLenB b c p d b.board.length + 1) * d) = EMPTY <;>
      simp [h1, h2] <;> omega

/-- Specification-side predicate for the amended C5: filling `p` with `c`
creates a maximal run through `p` along `d` of length at least 4 whose both
flanking cells are EMPTY (the source comment's `.XXXX.` shape).  `j` and `k`
are the number of run cells below and above `p`. -/
def makesOpenFour (b : SimpleGoBoard) (c p d : Nat) : Prop :=
  ∃ j, j ≤ b.board.length ∧ ∃ k, k ≤ b.board.length ∧
    4 ≤ 1 + j + k ∧ (j + 1) * d ≤ p ∧
    (∀ i, i ≤ j + k → (placed b p c).get (p - j * d + i * d) = c) ∧
    (placed b p c).get (p + (k + 1) * d) = EMPTY ∧
    (placed b p c).get (p - (j + 1) * d) = EMPTY

instance (b : SimpleGoBoard) (c p d : Nat) : Decidable (makesOpenFour b c p d) := by
  unfold makesOpenFour; infer_instance

/-- The scan agrees with the specification-side placement predicate. -/
theorem straight_check_iff_makesOpenFour {b : SimpleGoBoard} {c p d : Nat} (hb : WF b)
    (hc : c = BLACK ∨ c = WHITE) (hp : b.get p = EMPTY)
    (hply : isPlayable b.size p = true) (hd1 : 1 ≤ d) (hd2 : d ≤ b.size + 2) :
    (straight_check b p d c 4 false true = true ↔ makesOpenFour b c p d) := by
  have hlen := board_len_ge hb
  obtain ⟨hpge, hplt'⟩ := playable_bounds hply
  have hplt : p < b.board.length := by rw [hb.1] at *; omega
  have hcne : c ≠ EMPTY := by
    unfold EMPTY BLACK WHITE at *
    omega
  rw [straight_check_char hb hc hply hd1 hd2]
  set F := runLenF b c p d b.board.length with hFdef
  set B := runLenB b c p d b.board.length with hBdef
  constructor
  · rintro ⟨hcount, hef, heb⟩
    have hjd : (B + 1) * d ≤ p := bwd_mul_le hb hc hpge hd1 hd2 (B + 1) (by omega)
    have hBd : B * d ≤ p := bwd_mul_le hb hc hpge hd1 hd2 B (by omega)
    refine ⟨B, runLenB_le b c p d _, F, runLenF_le b c p d _, by omega, hjd, ?_, ?_, ?_⟩
    · intro i hi
      by_cases hiB : i ≤ B
      · have hsub : (B - i) * d = B * d - i * d := Nat.sub_mul B i d
        have himul : i * d ≤ B * d := Nat.mul_le_mul_right d hiB
        have hcell : p - B * d + i * d = p - (B - i) * d := by omega
        rw [hcell]
        rcases Nat.eq_zero_or_pos (B - i) with hz | hpos
        · rw [hz]
          simpa using placed_get_self b c hplt
        · have hx : 0 < (B - i) * d := Nat.mul_pos hpos (by omega)
          rw [placed_get_ne b c (by omega)]
          exact bwd_cells b c p d (B - i) (by omega) (by omega)
      · have hsub : (i - B) * d = i * d - B * d := Nat.sub_mul i B d
        have himul : B * d ≤ i * d := Nat.mul_le_mul_right d (by omega)
        have hcell : p - B * d + i * d = p + (i - B) * d := by omega
        have hx : 0 < (i - B) * d := Nat.mul_pos (by omega) (by omega)
        rw [hcell]
        rw [placed_get_ne b c (by omega)]
        exact fwd_cells b c p d (i - B) (by omega) (by omega)
    · have hx : 0 < (F + 1) * d := Nat.mul_pos (by omega) (by omega)
      rw [placed_get_ne b c (by omega)]
      exact hef
    · have hx : 0 < (B + 1) * d := Nat.mul_pos (by omega) (by omega)
      rw [placed_get_ne b c (by omega)]
      exact heb
  · rintro ⟨j, hjlen, k, hklen, hcount, hjd, hseg, hfl1, hfl2⟩
    have hjd' : j * d ≤ p := by
      have : j * d ≤ (j + 1) * d := Nat.mul_le_mul_right d (by omega)
      omega
    -- forward cells in the unfilled board
    have hfwd : ∀ i, 1 ≤ i → i ≤ k → b.get (p + i * d) = c := by
      intro i h1 hik
      have := hseg (j + i) (by omega)
      have hsub : (j + i) * d = j * d + i * d := by ring
      have hcell : p - j * d + (j + i) * d = p + i * d := by omega
      have hx : 0 < i * d := Nat.mul_pos (by omega) (by omega)
      rw [hcell] at this
      rw [← placed_get_ne b (p := p) (q := p + i * d) c (by omega)]
      exact this
    have hbwd : ∀ i, 1 ≤ i → i ≤ j → b.get (p - i * d) = c := by
      intro i h1 hij
      have := hseg (j - i) (by omega)
      have hsub : (j - i) * d = j * d - i * d := Nat.sub_mul j i d
      have himul : i * d ≤ j * d := Nat.mul_le_mul_right d hij
      have hcell : p - j * d + (j - i) * d = p - i * d := by omega
      have hx : 0 < i * d := Nat.mul_pos (by omega) (by omega)
      rw [hcell] at this
      have hne : p - i * d ≠ p := by omega
      rw [← placed_get_ne b (p := p) (q := p - i * d) c hne]
      exact this
    have hFk : F = k := by
      have hge : k ≤ F := by
        rw [hFdef]
        exact (runLenF_ge_iff b c d b.board.length p k hklen).mpr hfwd
      by_contra hne
      have hk1 : k + 1 ≤ F := by omega
      have hcell : b.get (p + (k + 1) * d) = c := fwd_cells b c p d (k + 1) (by omega) hk1
      have hx : 0 < (k + 1) * d := Nat.mul_pos (by omega) (by omega)
      rw [← placed_get_ne b (p := p) (q := p + (k + 1) * d) c (by omega)] at hcell
      rw [hfl1] at hcell
      exact hcne hcell.symm
    have hBj : B = j := by
      have hge : j ≤ B := by
        rw [hBdef]
        exact (runLenB_ge_iff b c d b.board.length p j hjlen).mpr hbwd
      by_contra hne
      have hj1 : j + 1 ≤ B := by omega
      have hcell : b.get (p - (j + 1) * d) = c := bwd_cells b c p d (j + 1) (by omega) hj1
      have hx : 0 < (j + 1) * d := Nat.mul_pos (by omega) (by omega)
      have hpne : p - (j + 1) * d ≠ p := by omega
      rw [← placed_get_ne b (p := p) (q := p - (j + 1) * d) c hpne] at hcell
      rw [hfl2] at hcell
      exact hcne hcell.symm
    subst hFk hBj
    refine ⟨by omega, ?_, ?_⟩
    · have hx : 0 < (F + 1) * d := Nat.mul_pos (by omega) (by omega)
      rw [← placed_get_ne b (p := p) (q := p + (F + 1) * d) c (by omega)]
      exact hfl1
    · have hx : 0 < (B + 1) * d := Nat.mul_pos (by omega) (by omega)
      have hpne : p - (B + 1) * d ≠ p := by omega
      rw [← placed_get_ne b (p := p) (q := p - (B + 1) * d) c hpne]
      exact hfl2

/-- A cell holding EMPTY is playable and in range. -/
theorem empty_playable {b : SimpleGoBoard} (hb : WF b) {p : Nat}
    (h : b.get p = EMPTY) : isPlayable b.size p = true ∧ p < b.board.length := by
  have hlt : p < b.board.length := by
    by_contra hge
    have : b.get p = BORDER := by
      unfold SimpleGoBoard.get
      exact List.getD_eq_default _ _ (by omega)
    rw [this] at h
    unfold BORDER EMPTY at *
    omega
  refine ⟨?_, hlt⟩
  by_contra hnp
  have := (hb.2.2 p hlt).2 (by simpa using hnp)
  rw [this] at h
  unfold BORDER EMPTY at *
  omega

/-- C5 amended: `open_four(color)` returns exactly the empty points that, if
filled by `color`, create a maximal run of length at least 4 along one of the
four axes with empty in-bounds cells beyond BOTH ends (`.XXXX.`), not merely
one end. -/
theorem open_four_iff (b : SimpleGoBoard) (hb : WF b) (c : Nat)
    (hc : c = BLACK ∨ c = WHITE) (p : Nat) :
    p ∈ open_four b c ↔
      (p < b.board.length ∧ b.get p = EMPTY ∧ ∃ d ∈ dirsOf b, makesOpenFour b c p d) := by
  unfold open_four
  rw [List.mem_filter]
  constructor
  · rintro ⟨hmem, hchk⟩
    have hplt : p < b.board.length := by
      have := List.mem_filter.mp hmem
      simpa using List.mem_range.mp this.1
    have hpe : b.get p = EMPTY := by
      have := (List.mem_filter.mp hmem).2
      simpa [EMPTY] using this
    have hply := (empty_playable hb hpe).1
    refine ⟨hplt, hpe, ?_⟩
    simp only [Bool.or_eq_true] at hchk
    have conv : ∀ d, d ∈ dirsOf b → straight_check b p d c 4 false true = true →
        ∃ d ∈ dirsOf b, makesOpenFour b c p d := by
      intro d hd hsc
      obtain ⟨hd1, hd2⟩ := dir_bounds hb hd
      exact ⟨d, hd, (straight_check_iff_makesOpenFour hb hc hpe hply hd1 hd2).mp hsc⟩
    rcases hchk with ((h1 | h1) | h1) | h1
    · exact conv 1 (by simp [dirsOf]) h1
    · exact conv b.NS (by simp [dirsOf]) h1
    · exact conv (b.NS + 1) (by simp [dirsOf]) h1
    · exact conv (b.NS - 1) (by simp [dirsOf]) h1
  · rintro ⟨hplt, hpe, d, hd, hm⟩
    have hply := (empty_playable hb hpe).1
    obtain ⟨hd1, hd2⟩ := dir_bounds hb hd
    have hsc : straight_check b p d c 4 false true = true :=
      (straight_check_iff_makesOpenFour hb hc hpe hply hd1 hd2).mpr hm
    refine ⟨?_, ?_⟩
    · apply List.mem_filter.mpr
      exact ⟨List.mem_range.mpr hplt, by simpa [EMPTY] using hpe⟩
    · simp only [Bool.or_eq_true]
      simp only [dirsOf, List.mem_cons, List.mem_singleton, List.not_mem_nil, or_false] at hd
      rcases hd with h1 | h1 | h1 | h1 <;> subst h1 <;> simp [hsc]

/-- The C5 scenario board: size 7, BLACK stones on row 1 at columns 2,3,4,
the flanking cells (1,1) and (1,5) empty. -/
def c5Board : SimpleGoBoard :=
  (playMoveGomoku
    (playMoveGomoku
      (playMoveGomoku (resetBoard 7) (pt 7 1 2) BLACK).2
      (pt 7 1 3) BLACK).2
    (pt 7 1 4) BLACK).2

/-- C5 as stated is false: on the `.XXX.` row (BLACK at columns 2–4 of row 1
on a 7×7 board, columns 1 and 5 empty), `open_four(BLACK)` contains column 5
but NOT column 1 — filling column 1 yields a four whose lower end abuts the
BORDER, and the scan demands BOTH break cells empty (`empty == 2`). -/
theorem open_four_counterexample :
    c5Board.get (pt 7 1 2) = BLACK ∧ c5Board.get (pt 7 1 3) = BLACK ∧
    c5Board.get (pt 7 1 4) = BLACK ∧ c5Board.get (pt 7 1 1) = EMPTY ∧
    c5Board.get (pt 7 1 5) = EMPTY ∧
    (pt 7 1 5) ∈ open_four c5Board BLACK ∧ ¬ (pt 7 1 1) ∈ open_four c5Board BLACK := by
  decide

/-- Witness for C5's amended theorem at a concrete input. -/
theorem open_four_iff_witness :
    (pt 7 1 5) ∈ open_four c5Board BLACK ↔
      (pt 7 1 5 < c5Board.board.length ∧ c5Board.get (pt 7 1 5) = EMPTY ∧
        ∃ d ∈ dirsOf c5Board, makesOpenFour c5Board BLACK (pt 7 1 5) d) :=
  open_four_iff c5Board (by decide) BLACK (Or.inl rfl) (pt 7 1 5)

/-! ### Neighbor topology and the Go-inherited legality check (`is_legal`)

`is_legal` temporarily writes the candidate stone, runs capture/suicide
detection (which mutates only the `liberty_of` cache), and restores the cell.
All of it is embedded state-passing. -/

/-- The precomputed neighbor table of `_initialize_neighbors`: border points
get `[]`, playable points get their on-board neighbors in the order
`p-1, p+1, p-NS, p+NS` (at `reset` time a cell is on-board iff playable). -/
def neighborsOf (size p : Nat) : List Nat :=
  if isPlayable size p then
    [p - 1, p + 1, p - (size + 1), p + (size + 1)].filter (fun q => isPlayable size q)
  else []

/-- `neighbors_of_color(point, color)`. -/
def neighborsOfColor (b : SimpleGoBoard) (p color : Nat) : List Nat :=
  (neighborsOf b.size p).filter (fun q => b.get q == color)

/-- `find_neighbor_of_color(point, color)`: first matching neighbor or None. -/
def findNeighborOfColor (b : SimpleGoBoard) (p color : Nat) : Option Nat :=
  (neighborsOf b.size p).find? (fun q => b.get q == color)

/-- `_stone_has_liberty(stone)`. -/
def stoneHasLiberty (b : SimpleGoBoard) (stone : Nat) : Bool :=
  (findNeighborOfColor b stone EMPTY).isSome

/-- The `while pointstack` loop of `_block_of`: pop the most recent stone,
mark-and-push its unmarked same-color neighbors.  Every push marks a fresh
cell, so `board.length + 1` fuel covers every possible execution. -/
def blockLoop (b : SimpleGoBoard) (color : Nat) : Nat → List Nat → List Bool → List Bool
  | 0, _, marker => marker
  | _ + 1, [], marker => marker
  | fuel + 1, pstone :: stack, marker =>
    let step := (neighborsOfColor b pstone color).foldl
      (fun (acc : List Bool × List Nat) nb =>
        if acc.1.getD nb false then acc else (acc.1.set nb true, nb :: acc.2))
      (marker, stack)
    blockLoop b color fuel step.2 step.1

/-- `_block_of(stone)`: boolean marker array of the block of `stone`. -/
def blockOf (b : SimpleGoBoard) (stone : Nat) : List Bool :=
  blockLoop b (b.get stone) (b.board.length + 1) [stone]
    ((List.replicate b.board.length false).set stone true)

/-- `where1d(block)` for a boolean marker array: the marked indices in
increasing order. -/
def where1dMarker (marker : List Bool) : List Nat :=
  (List.range marker.length).filter (fun p => marker.getD p false)

/-- `_get_liberty(block)`: first stone of the block with an EMPTY neighbor
gives that neighbor. -/
def getLiberty (b : SimpleGoBoard) (block : List Bool) : Option Nat :=
  (where1dMarker block).findSome? (fun stone => findNeighborOfColor b stone EMPTY)

/-- `_has_liberty(block)`: on success, records the found liberty for every
stone of the block in the `liberty_of` cache. -/
def hasLibertyState (b : SimpleGoBoard) (block : List Bool) : Bool × SimpleGoBoard :=
  match getLiberty b block with
  | some lib =>
    (true, { b with liberty_of :=
      (where1dMarker block).foldl (fun lo stone => lo.set stone (some lib)) b.liberty_of })
  | none => (false, b)

/-- `_fast_liberty_check(nb_point)`: cached liberty still empty, or a direct
empty neighbor. -/
def fastLibertyCheck (b : SimpleGoBoard) (nb : Nat) : Bool :=
  match b.liberty_of.getD nb none with
  | some lib => if b.get lib = EMPTY then true else stoneHasLiberty b nb
  | none => stoneHasLiberty b nb

/-- `_detect_capture(nb_point)` (detection only, no stone removal). -/
def detectCapture (b : SimpleGoBoard) (nb : Nat) : Bool × SimpleGoBoard :=
  if fastLibertyCheck b nb then (false, b)
  else
    let r := hasLibertyState b (blockOf b nb)
    (! r.1, r.2)

/-- The loop of `_detect_captures` over the opponent neighbors, with its
early `return True`. -/
def detectCapturesLoop : SimpleGoBoard → List Nat → Bool × SimpleGoBoard
  | b, [] => (false, b)
  | b, nb :: rest =>
    let r := detectCapture b nb
    if r.1 then (true, r.2) else detectCapturesLoop r.2 rest

/-- `_detect_captures(point, opp_color)`; the neighbor list is computed once
at entry, as in the source. -/
def detectCaptures (b : SimpleGoBoard) (point oppColor : Nat) : Bool × SimpleGoBoard :=
  detectCapturesLoop b (neighborsOfColor b point oppColor)

/-- `is_legal(point, color)`: PASS is always legal; occupied and ko points
are illegal; otherwise the stone is written, captures and suicide are
checked, and the cell is restored to EMPTY on every path.  The
`assert is_black_white(color)` appears as a hypothesis of the theorems. -/
def is_legal (b : SimpleGoBoard) (point : Option Nat) (color : Nat) :
    Bool × SimpleGoBoard :=
  match point with
  | none => (true, b)
  | some p =>
    if b.get p ≠ EMPTY then (false, b)
    else if b.ko_recapture = some p then (false, b)
    else
      let b1 := { b with board := b.board.set p color }
      let r := detectCaptures b1 p (opponent color)
      if !r.1 && !stoneHasLiberty r.2 p then
        let r2 := hasLibertyState r.2 (blockOf r.2 p)
        (r2.1, { r2.2 with board := r2.2.board.set p EMPTY })
      else
        (true, { r.2 with board := r.2.board.set p EMPTY })

/-! ### Frame: the stateful helpers only touch the liberty cache -/

/-- Two board states agreeing on everything except the liberty cache. -/
def SameCtx (b b' : SimpleGoBoard) : Prop :=
  b'.size = b.size ∧ b'.board = b.board ∧ b'.current_player = b.current_player ∧
  b'.ko_recapture = b.ko_recapture

theorem SameCtx.refl (b : SimpleGoBoard) : SameCtx b b := ⟨rfl, rfl, rfl, rfl⟩

theorem SameCtx.trans {a b c : SimpleGoBoard} (h1 : SameCtx a b) (h2 : SameCtx b c) :
    SameCtx a c := by
  obtain ⟨e1, e2, e3, e4⟩ := h1
  obtain ⟨f1, f2, f3, f4⟩ := h2
  exact ⟨f1.trans e1, f2.trans e2, f3.trans e3, f4.trans e4⟩

theorem SameCtx.get_eq {a b : SimpleGoBoard} (h : SameCtx a b) (p : Nat) :
    b.get p = a.get p := by
  unfold SimpleGoBoard.get
  rw [h.2.1]

theorem hasLibertyState_frame (b : SimpleGoBoard) (block : List Bool) :
    SameCtx b (hasLibertyState b block).2 := by
  unfold hasLibertyState
  cases getLiberty b block with
  | none => exact SameCtx.refl b
  | some lib => exact ⟨rfl, rfl, rfl, rfl⟩

theorem detectCapture_frame (b : SimpleGoBoard) (nb : Nat) :
    SameCtx b (detectCapture b nb).2 := by
  unfold detectCapture
  split
  · exact SameCtx.refl b
  · exact hasLibertyState_frame b (blockOf b nb)

theorem detectCapturesLoop_frame : ∀ (l : List Nat) (b : SimpleGoBoard),
    SameCtx b (detectCapturesLoop b l).2 := by
  intro l
  induction l with
  | nil => intro b; exact SameCtx.refl b
  | cons nb rest ih =>
    intro b
    simp only [detectCapturesLoop]
    split
    · exact detectCapture_frame b nb
    · exact (detectCapture_frame b nb).trans (ih _)

theorem detectCaptures_frame (b : SimpleGoBoard) (point oppColor : Nat) :
    SameCtx b (detectCaptures b point oppColor).2 :=
  detectCapturesLoop_frame _ b

/-- A cell that holds a non-BORDER value is inside the array. -/
theorem get_lt_of_ne_border {b : SimpleGoBoard} {p v : Nat} (h : b.get p = v)
    (hv : v ≠ BORDER) : p < b.board.length := by
  by_contra hge
  have : b.get p = BORDER := by
    unfold SimpleGoBoard.get
    exact List.getD_eq_default _ _ (by omega)
  rw [this] at h
  exact hv h.symm

/-- The C10 core: `is_legal` returns the grid (and `current_player`, size,
ko) exactly as it found them, on every path — the temporary stone write is
undone before returning. -/
theorem is_legal_frame (b : SimpleGoBoard) (point : Option Nat) (color : Nat) :
    SameCtx b (is_legal b point color).2 := by
  unfold is_legal
  match point with
  | none => exact SameCtx.refl b
  | some p =>
    by_cases hocc : b.get p ≠ EMPTY
    · simp only [if_pos hocc]
      exact SameCtx.refl b
    · simp only [if_neg hocc]
      push_neg at hocc
      have hplt : p < b.board.length := get_lt_of_ne_border hocc (by decide)
      by_cases hko : b.ko_recapture = some p
      · simp only [if_pos hko]
        exact SameCtx.refl b
      · simp only [if_neg hko]
        set b1 : SimpleGoBoard := { b with board := b.board.set p color } with hb1
        have hrestore : ∀ b2 : SimpleGoBoard, SameCtx b1 b2 →
            (b2.board.set p EMPTY) = b.board := by
          intro b2 h2
          rw [h2.2.1]
          show (b.board.set p color).set p EMPTY = b.board
          rw [List.set_set]
          exact List.set_getD_self hocc hplt
        have hcap := detectCaptures_frame b1 p (opponent color)
        split
        · have hlib := hasLibertyState_frame (detectCaptures b1 p (opponent color)).2
            (blockOf (detectCaptures b1 p (opponent color)).2 p)
          have hctx : SameCtx b1 (hasLibertyState (detectCaptures b1 p (opponent color)).2
              (blockOf (detectCaptures b1 p (opponent color)).2 p)).2 :=
            hcap.trans hlib
          refine ⟨hctx.1, ?_, hctx.2.2.1, hctx.2.2.2⟩
          exact hrestore _ hctx
        · refine ⟨hcap.1, ?_, hcap.2.2.1, hcap.2.2.2⟩
          exact hrestore _ hcap

/-! ### Purity of `is_legal` on open positions

The result bit of `is_legal` can in principle depend on the liberty cache
(stale entries can suppress capture detection), but only in positions where
the placed stone's whole block would have no liberty.  On a position in which
every empty cell has an empty neighbor, the placed stone itself always has a
liberty, so `is_legal` is simply the emptiness test of the cell, whatever the
cache holds. -/

/-- Every empty cell has an empty neighbor.  This makes the Go legality
probes deterministic (cache-independent). -/
def openPosition (b : SimpleGoBoard) : Prop :=
  ∀ p, p < b.board.length → b.get p = EMPTY →
    ∃ y, y ∈ neighborsOf b.size p ∧ b.get y = EMPTY

instance (b : SimpleGoBoard) : Decidable (openPosition b) := by
  unfold openPosition; infer_instance

theorem mem_neighborsOf_ne {size p q : Nat} (hp : isPlayable size p = true)
    (hq : q ∈ neighborsOf size p) : q ≠ p ∧ isPlayable size q = true := by
  have hb := playable_bounds hp
  unfold neighborsOf at hq
  rw [if_pos hp] at hq
  have := List.mem_filter.mp hq
  refine ⟨?_, by simpa using this.2⟩
  have hmem := this.1
  simp only [List.mem_cons, List.mem_singleton, List.not_mem_nil, or_false] at hmem
  rcases hmem with h | h | h | h <;> omega

theorem is_legal_val {b0 : SimpleGoBoard} (hko : b0.ko_recapture = none)
    (hopen : openPosition b0) {b : SimpleGoBoard} (hctx : SameCtx b0 b)
    (x color : Nat) :
    (is_legal b (some x) color).1 = (b0.get x == EMPTY) := by
  have hget : b.get x = b0.get x := hctx.get_eq x
  unfold is_legal
  by_cases hocc : b.get x ≠ EMPTY
  · simp only [if_pos hocc]
    rw [hget] at hocc
    simp [beq_iff_eq, hocc]
  · simp only [if_neg hocc]
    push_neg at hocc
    have hko' : ¬ b.ko_recapture = some x := by
      rw [hctx.2.2.2, hko]
      simp
    rw [if_neg hko']
    have hxe : b0.get x = EMPTY := by rw [← hget]; exact hocc
    have hxlt : x < b0.board.length := get_lt_of_ne_border hxe (by decide)
    obtain ⟨y, hymem, hye⟩ := hopen x hxlt hxe
    have hxply : isPlayable b0.size x = true := by
      by_contra hnp
      unfold neighborsOf at hymem
      rw [if_neg hnp] at hymem
      exact absurd hymem (List.not_mem_nil y)
    have hyne : y ≠ x := (mem_neighborsOf_ne hxply hymem).1
    set b1 : SimpleGoBoard := { b with board := b.board.set x color } with hb1
    have hctx1 : SameCtx b1 (detectCaptures b1 x (opponent color)).2 :=
      detectCaptures_frame b1 x (opponent color)
    have hstone : stoneHasLiberty (detectCaptures b1 x (opponent color)).2 x = true := by
      unfold stoneHasLiberty findNeighborOfColor
      have hsz : (detectCaptures b1 x (opponent color)).2.size = b0.size := by
        rw [hctx1.1]
        exact hctx.1
      have hyget : (detectCaptures b1 x (opponent color)).2.get y = EMPTY := by
        rw [hctx1.get_eq y]
        show ({ b with board := b.board.set x color } : SimpleGoBoard).get y = EMPTY
        unfold SimpleGoBoard.get
        show (b.board.set x color).getD y BORDER = EMPTY
        rw [getD_set_ne color BORDER (by omega)]
        rw [show b.board.getD y BORDER = b.get y from rfl, hctx.get_eq y]
        exact hye
      rw [List.find?_isSome]
      refine ⟨y, ?_, by simp [hyget]⟩
      rw [hsz]
      exact hymem
    rw [hstone]
    simp only [Bool.not_true, Bool.and_false, Bool.false_eq_true, if_false]
    simp [beq_iff_eq, hxe]

theorem is_legal_ctx {b0 b : SimpleGoBoard} (hctx : SameCtx b0 b)
    (point : Option Nat) (color : Nat) :
    SameCtx b0 (is_legal b point color).2 :=
  hctx.trans (is_legal_frame b point color)

/-! ### `direction_check_connect_gomoko` (the public one, used by `check_n`) -/

/-- First while loop: walk forward; when the count first reaches `maxv`,
probe the extension cell with `is_legal`, falling back to the cell behind the
start point, and break.  State is threaded because `is_legal` writes the
liberty cache. -/
def dccFwdLoop (color pt shift maxv : Nat) :
    SimpleGoBoard → Nat → Nat → Nat → Nat × List Nat × SimpleGoBoard
  | b, _, count, 0 => (count, [], b)
  | b, p, count, fuel + 1 =>
    if b.get (p + shift) = color then
      if count + 1 = maxv then
        let r1 := is_legal b (some (p + shift + shift)) color
        if r1.1 then (count + 1, [p + shift + shift], r1.2)
        else
          let r2 := is_legal r1.2 (some (pt - shift)) color
          if r2.1 then (count + 1, [pt - shift], r2.2) else (count + 1, [], r2.2)
      else dccFwdLoop color pt shift maxv b (p + shift) (count + 1) fuel
    else (count, [], b)

/-- Second while loop (direction `-shift`), entered with the first loop's
count; only the forward extension is probed here, and a count that enters at
or above `maxv` walks to the end of the run (the `count == max` break can no
longer fire), exactly as in the source. -/
def dccBwdLoop (color pt shift maxv : Nat) :
    SimpleGoBoard → Nat → Nat → Nat → Nat × List Nat × SimpleGoBoard
  | b, _, count, 0 => (count, [], b)
  | b, p, count, fuel + 1 =>
    if b.get (p - shift) = color then
      if count + 1 = maxv then
        let r1 := is_legal b (some (p - shift - shift)) color
        if r1.1 then (count + 1, [p - shift - shift], r1.2) else (count + 1, [], r1.2)
      else dccBwdLoop color pt shift maxv b (p - shift) (count + 1) fuel
    else (count, [], b)

/-- `direction_check_connect_gomoko(point, shift, max)`: both loops, the
collected `pointWin` cells, and the `count == max` verdict. -/
def direction_check_connect_gomoko (b : SimpleGoBoard) (point shift maxv : Nat) :
    (Bool × List Nat) × SimpleGoBoard :=
  ((((dccBwdLoop (b.get point) point shift maxv
        (dccFwdLoop (b.get point) point shift maxv b point 1 b.board.length).2.2 point
        (dccFwdLoop (b.get point) point shift maxv b point 1 b.board.length).1
        b.board.length).1 == maxv),
    (dccFwdLoop (b.get point) point shift maxv b point 1 b.board.length).2.1 ++
      (dccBwdLoop (b.get point) point shift maxv
        (dccFwdLoop (b.get point) point shift maxv b point 1 b.board.length).2.2 point
        (dccFwdLoop (b.get point) point shift maxv b point 1 b.board.length).1
        b.board.length).2.1),
   (dccBwdLoop (b.get point) point shift maxv
      (dccFwdLoop (b.get point) point shift maxv b point 1 b.board.length).2.2 point
      (dccFwdLoop (b.get point) point shift maxv b point 1 b.board.length).1
      b.board.length).2.2)

/-- Pure twin of `dccFwdLoop` under `openPosition` (where each `is_legal`
probe is just the emptiness test of the probed cell). -/
def dccFwdPure (b0 : SimpleGoBoard) (color pt shift maxv : Nat) :
    Nat → Nat → Nat → Nat × List Nat
  | _, count, 0 => (count, [])
  | p, count, fuel + 1 =>
    if b0.get (p + shift) = color then
      if count + 1 = maxv then
        if b0.get (p + shift + shift) = EMPTY then (count + 1, [p + shift + shift])
        else if b0.get (pt - shift) = EMPTY then (count + 1, [pt - shift])
        else (count + 1, [])
      else dccFwdPure b0 color pt shift maxv (p + shift) (count + 1) fuel
    else (count, [])

/-- Pure twin of `dccBwdLoop`. -/
def dccBwdPure (b0 : SimpleGoBoard) (color pt shift maxv : Nat) :
    Nat → Nat → Nat → Nat × List Nat
  | _, count, 0 => (count, [])
  | p, count, fuel + 1 =>
    if b0.get (p - shift) = color then
      if count + 1 = maxv then
        if b0.get (p - shift - shift) = EMPTY then (count + 1, [p - shift - shift])
        else (count + 1, [])
      else dccBwdPure b0 color pt shift maxv (p - shift) (count + 1) fuel
    else (count, [])

/-- Pure twin of `direction_check_connect_gomoko`. -/
def dccPure (b0 : SimpleGoBoard) (point shift maxv : Nat) : Bool × List Nat :=
  (((dccBwdPure b0 (b0.get point) point shift maxv point
      (dccFwdPure b0 (b0.get point) point shift maxv point 1 b0.board.length).1
      b0.board.length).1 == maxv),
   (dccFwdPure b0 (b0.get point) point shift maxv point 1 b0.board.length).2 ++
     (dccBwdPure b0 (b0.get point) point shift maxv point
       (dccFwdPure b0 (b0.get point) point shift maxv point 1 b0.board.length).1
       b0.board.length).2)

theorem dccFwdLoop_frame (color pt shift maxv : Nat) :
    ∀ fuel p count (b : SimpleGoBoard),
      SameCtx b (dccFwdLoop color pt shift maxv b p count fuel).2.2 := by
  intro fuel
  induction fuel with
  | zero => intro p count b; exact SameCtx.refl b
  | succ f ih =>
    intro p count b
    simp only [dccFwdLoop]
    split
    · split
      · split
        · exact is_legal_frame b _ color
        · split
          · exact (is_legal_frame b _ color).trans (is_legal_frame _ _ color)
          · exact (is_legal_frame b _ color).trans (is_legal_frame _ _ color)
      · exact ih _ _ b
    · exact SameCtx.refl b

theorem dccBwdLoop_frame (color pt shift maxv : Nat) :
    ∀ fuel p count (b : SimpleGoBoard),
      SameCtx b (dccBwdLoop color pt shift maxv b p count fuel).2.2 := by
  intro fuel
  induction fuel with
  | zero => intro p count b; exact SameCtx.refl b
  | succ f ih =>
    intro p count b
    simp only [dccBwdLoop]
    split
    · split
      · split
        · exact is_legal_frame b _ color
        · exact is_legal_frame b _ color
      · exact ih _ _ b
    · exact SameCtx.refl b

theorem dcc_frame (b : SimpleGoBoard) (point shift maxv : Nat) :
    SameCtx b (direction_check_connect_gomoko b point shift maxv).2 := by
  unfold direction_check_connect_gomoko
  exact (dccFwdLoop_frame _ _ _ _ _ _ _ b).trans (dccBwdLoop_frame _ _ _ _ _ _ _ _)

theorem dccFwdLoop_spec {b0 : SimpleGoBoard} (hko : b0.ko_recapture = none)
    (hopen : openPosition b0) (color pt shift maxv : Nat) :
    ∀ fuel p count (b : SimpleGoBoard), SameCtx b0 b →
      (dccFwdLoop color pt shift maxv b p count fuel).1 =
        (dccFwdPure b0 color pt shift maxv p count fuel).1 ∧
      (dccFwdLoop color pt shift maxv b p count fuel).2.1 =
        (dccFwdPure b0 color pt shift maxv p count fuel).2 := by
  intro fuel
  induction fuel with
  | zero => intro p count b hctx; exact ⟨rfl, rfl⟩
  | succ f ih =>
    intro p count b hctx
    simp only [dccFwdLoop, dccFwdPure, hctx.get_eq]
    by_cases hcell : b0.get (p + shift) = color
    · rw [if_pos hcell, if_pos hcell]
      by_cases hmax : count + 1 = maxv
      · rw [if_pos hmax, if_pos hmax]
        have hv1 := is_legal_val hko hopen hctx (p + shift + shift) color
        by_cases h1 : b0.get (p + shift + shift) = EMPTY
        · have : (is_legal b (some (p + shift + shift)) color).1 = true := by
            rw [hv1]; simp [h1]
          rw [this, if_pos rfl, if_pos h1]
          constructor <;> trivial
        · have hfalse : (is_legal b (some (p + shift + shift)) color).1 = false := by
            rw [hv1]; simp [h1]
          rw [hfalse, if_neg h1]
          simp only [Bool.false_eq_true, if_false]
          have hctx1 : SameCtx b0 (is_legal b (some (p + shift + shift)) color).2 :=
            is_legal_ctx hctx _ color
          have hv2 := is_legal_val hko hopen hctx1 (pt - shift) color
          by_cases h2 : b0.get (pt - shift) = EMPTY
          · have : (is_legal (is_legal b (some (p + shift + shift)) color).2
                (some (pt - shift)) color).1 = true := by
              rw [hv2]; simp [h2]
            rw [this, if_pos rfl, if_pos h2]
            constructor <;> trivial
          · have : (is_legal (is_legal b (some (p + shift + shift)) color).2
                (some (pt - shift)) color).1 = false := by
              rw [hv2]; simp [h2]
            rw [this, if_neg h2]
            simp only [Bool.false_eq_true, if_false]
            constructor <;> trivial
      · rw [if_neg hmax, if_neg hmax]
        exact ih _ _ b hctx
    · rw [if_neg hcell, if_neg hcell]
      exact ⟨rfl, rfl⟩

theorem dccBwdLoop_spec {b0 : SimpleGoBoard} (hko : b0.ko_recapture = none)
    (hopen : openPosition b0) (color pt shift maxv : Nat) :
    ∀ fuel p count (b : SimpleGoBoard), SameCtx b0 b →
      (dccBwdLoop color pt shift maxv b p count fuel).1 =
        (dccBwdPure b0 color pt shift maxv p count fuel).1 ∧
      (dccBwdLoop color pt shift maxv b p count fuel).2.1 =
        (dccBwdPure b0 color pt shift maxv p count fuel).2 := by
  intro fuel
  induction fuel with
  | zero => intro p count b hctx; exact ⟨rfl, rfl⟩
  | succ f ih =>
    intro p count b hctx
    simp only [dccBwdLoop, dccBwdPure, hctx.get_eq]
    by_cases hcell : b0.get (p - shift) = color
    · rw [if_pos hcell, if_pos hcell]
      by_cases hmax : count + 1 = maxv
      · rw [if_pos hmax, if_pos hmax]
        have hv1 := is_legal_val hko hopen hctx (p - shift - shift) color
        by_cases h1 : b0.get (p - shift - shift) = EMPTY
        · have : (is_legal b (some (p - shift - shift)) color).1 = true := by
            rw [hv1]; simp [h1]
          rw [this, if_pos rfl, if_pos h1]
          constructor <;> trivial
        · have : (is_legal b (some (p - shift - shift)) color).1 = false := by
            rw [hv1]; simp [h1]
          rw [this, if_neg h1]
          simp only [Bool.false_eq_true, if_false]
          constructor <;> trivial
      · rw [if_neg hmax, if_neg hmax]
        exact ih _ _ b hctx
    · rw [if_neg hcell, if_neg hcell]
      exact ⟨rfl, rfl⟩

theorem dcc_spec {b0 : SimpleGoBoard} (hko : b0.ko_recapture = none)
    (hopen : openPosition b0) {b : SimpleGoBoard} (hctx : SameCtx b0 b)
    (point shift maxv : Nat) :
    (direction_check_connect_gomoko b point shift maxv).1 = dccPure b0 point shift maxv ∧
    SameCtx b0 (direction_check_connect_gomoko b point shift maxv).2 := by
  have hlen : b.board.length = b0.board.length := by rw [hctx.2.1]
  have hcol : b.get point = b0.get point := hctx.get_eq point
  unfold direction_check_connect_gomoko dccPure
  rw [hcol, hlen]
  have hf := dccFwdLoop_spec hko hopen (b0.get point) point shift maxv
    b0.board.length point 1 b hctx
  have hfctx : SameCtx b0 (dccFwdLoop (b0.get point) point shift maxv b point 1
      b0.board.length).2.2 :=
    hctx.trans (dccFwdLoop_frame _ _ _ _ _ _ _ b)
  have hg := dccBwdLoop_spec hko hopen (b0.get point) point shift maxv
    b0.board.length point ((dccFwdLoop (b0.get point) point shift maxv b point 1
      b0.board.length).1) _ hfctx
  constructor
  · rw [hf.1] at hg
    rw [hf.1, hf.2, hg.1, hg.2]
  · exact hfctx.trans (dccBwdLoop_frame _ _ _ _ _ _ _ _)

/-! ### `check_n`, `generate_legal_moves`, `order_the_point` -/

/-- `get_empty_points()`. -/
def get_empty_points (b : SimpleGoBoard) : List Nat := where1dEq b EMPTY

/-- `generate_legal_moves(color)` of `simple_board.py`: copies the empty
point list (the color argument is unused in the source too). -/
def generate_legal_moves (b : SimpleGoBoard) (color : Nat) : List Nat :=
  get_empty_points b

/-- Helper for modelling Python's `list(set(list_p))` in `check_n`: CPython's
iteration order over a small set of ints is an implementation detail, so the
deduplication is modelled as keep-first-occurrence; the theorems depend only
on membership, never on this order. -/
def dedupAux : List Nat → List Nat → List Nat
  | [], _ => []
  | x :: xs, seen => if x ∈ seen then dedupAux xs seen else x :: dedupAux xs (x :: seen)

/-- Deduplicate keeping first occurrences. -/
def dedupKeepFirst (l : List Nat) : List Nat := dedupAux l []

theorem dedupAux_mem : ∀ (l seen : List Nat) (w : Nat),
    w ∈ dedupAux l seen ↔ (w ∈ l ∧ ¬ w ∈ seen) := by
  intro l
  induction l with
  | nil => intro seen w; simp [dedupAux]
  | cons x xs ih =>
    intro seen w
    simp only [dedupAux]
    by_cases hx : x ∈ seen
    · rw [if_pos hx, ih]
      simp only [List.mem_cons]
      constructor
      · rintro ⟨h1, h2⟩; exact ⟨Or.inr h1, h2⟩
      · rintro ⟨rfl | h1, h2⟩
        · exact absurd hx h2
        · exact ⟨h1, h2⟩
    · rw [if_neg hx]
      simp only [List.mem_cons, ih]
      by_cases hwx : w = x
      · subst hwx; simp [hx]
      · simp [hwx]

theorem dedupKeepFirst_mem (l : List Nat) (w : Nat) :
    w ∈ dedupKeepFirst l ↔ w ∈ l := by
  unfold dedupKeepFirst
  rw [dedupAux_mem]
  simp

theorem dedupKeepFirst_ne_nil {l : List Nat} (h : l ≠ []) : dedupKeepFirst l ≠ [] := by
  cases l with
  | nil => exact absurd rfl h
  | cons x xs =>
    unfold dedupKeepFirst dedupAux
    simp

/-- The four sequential direction checks of `check_n`, folded over
`dirsOf = [1, NS, NS+1, NS-1]` in source order, accumulating `list_p`. -/
def checkNLoop : SimpleGoBoard → Nat → Nat → List Nat → List Nat → List Nat × SimpleGoBoard
  | b, _, _, [], acc => (acc, b)
  | b, point, maxv, d :: rest, acc =>
    checkNLoop (direction_check_connect_gomoko b point d maxv).2 point maxv rest
      (if (direction_check_connect_gomoko b point d maxv).1.1 then
        acc ++ (direction_check_connect_gomoko b point d maxv).1.2
      else acc)

/-- `check_n(point, max)`: `False` (here `none`) when no direction
contributed, else `list(set(list_p))`.  CPython's iteration order over a
small set of ints is an implementation detail; it is modelled as
`eraseDups` (keep first occurrences).  The theorems depend only on the
membership of the result, never on this order. -/
def check_n (b : SimpleGoBoard) (point maxv : Nat) : Option (List Nat) × SimpleGoBoard :=
  (if (checkNLoop b point maxv (dirsOf b) []).1 = [] then none
   else some (dedupKeepFirst (checkNLoop b point maxv (dirsOf b) []).1),
   (checkNLoop b point maxv (dirsOf b) []).2)

/-- Pure twin of `checkNLoop`. -/
def checkNPureLoop (b0 : SimpleGoBoard) (point maxv : Nat) : List Nat → List Nat → List Nat
  | [], acc => acc
  | d :: rest, acc =>
    checkNPureLoop b0 point maxv rest
      (if (dccPure b0 point d maxv).1 then acc ++ (dccPure b0 point d maxv).2 else acc)

/-- Pure twin of `check_n`. -/
def checkNPure (b0 : SimpleGoBoard) (point maxv : Nat) : Option (List Nat) :=
  if checkNPureLoop b0 point maxv (dirsOf b0) [] = [] then none
  else some (dedupKeepFirst (checkNPureLoop b0 point maxv (dirsOf b0) []))

theorem checkNLoop_frame (point maxv : Nat) : ∀ (ds acc : List Nat) (b : SimpleGoBoard),
    SameCtx b (checkNLoop b point maxv ds acc).2 := by
  intro ds
  induction ds with
  | nil => intro acc b; exact SameCtx.refl b
  | cons d rest ih =>
    intro acc b
    exact (dcc_frame b point d maxv).trans (ih _ _)

theorem check_n_frame (b : SimpleGoBoard) (point maxv : Nat) :
    SameCtx b (check_n b point maxv).2 :=
  checkNLoop_frame point maxv (dirsOf b) [] b

theorem dirsOf_congr {b0 b : SimpleGoBoard} (h : b.size = b0.size) :
    dirsOf b = dirsOf b0 := by
  unfold dirsOf SimpleGoBoard.NS
  rw [h]

theorem checkNLoop_spec {b0 : SimpleGoBoard} (hko : b0.ko_recapture = none)
    (hopen : openPosition b0) (point maxv : Nat) :
    ∀ (ds acc : List Nat) (b : SimpleGoBoard), SameCtx b0 b →
      (checkNLoop b point maxv ds acc).1 = checkNPureLoop b0 point maxv ds acc := by
  intro ds
  induction ds with
  | nil => intro acc b hctx; rfl
  | cons d rest ih =>
    intro acc b hctx
    have hd := dcc_spec hko hopen hctx point d maxv
    simp only [checkNLoop, checkNPureLoop, hd.1]
    exact ih _ _ (hd.2)

theorem check_n_spec {b0 : SimpleGoBoard} (hko : b0.ko_recapture = none)
    (hopen : openPosition b0) {b : SimpleGoBoard} (hctx : SameCtx b0 b)
    (point maxv : Nat) :
    (check_n b point maxv).1 = checkNPure b0 point maxv := by
  unfold check_n checkNPure
  rw [dirsOf_congr hctx.1, checkNLoop_spec hko hopen point maxv (dirsOf b0) [] b hctx]

/-- One bucket pass of `order_the_point` (`final_4`, `final_3`, ...): for
each own-color stone, `check_n` is called once for the `!= False` test and —
exactly as in the source — a second time for the value; a `False` second
result would make the list comprehension iterate over a bool, a `TypeError`,
embedded as `Except.error`. -/
def statePass : List Nat → Nat → SimpleGoBoard → List Nat →
    Except Unit (List Nat × SimpleGoBoard)
  | [], _, b, acc => .ok (acc, b)
  | ptp :: rest, maxv, b, acc =>
    match (check_n b ptp maxv).1 with
    | none => statePass rest maxv (check_n b ptp maxv).2 acc
    | some _ =>
      match (check_n (check_n b ptp maxv).2 ptp maxv).1 with
      | none => .error ()
      | some l =>
        statePass rest maxv (check_n (check_n b ptp maxv).2 ptp maxv).2
          (acc ++ l.filter (fun x => decide (¬ x ∈ acc)))

/-- Pure twin of `statePass` (single evaluation: on open positions the two
`check_n` calls agree). -/
def passPure (b0 : SimpleGoBoard) (maxv : Nat) : List Nat → List Nat → List Nat
  | [], acc => acc
  | ptp :: rest, acc =>
    match checkNPure b0 ptp maxv with
    | none => passPure b0 maxv rest acc
    | some l => passPure b0 maxv rest (acc ++ l.filter (fun x => decide (¬ x ∈ acc)))

theorem statePass_spec {b0 : SimpleGoBoard} (hko : b0.ko_recapture = none)
    (hopen : openPosition b0) (maxv : Nat) :
    ∀ (pts acc : List Nat) (b : SimpleGoBoard), SameCtx b0 b →
      ∃ b', statePass pts maxv b acc = .ok (passPure b0 maxv pts acc, b') ∧ SameCtx b0 b' := by
  intro pts
  induction pts with
  | nil => intro acc b hctx; exact ⟨b, rfl, hctx⟩
  | cons ptp rest ih =>
    intro acc b hctx
    have h1 : (check_n b ptp maxv).1 = checkNPure b0 ptp maxv :=
      check_n_spec hko hopen hctx ptp maxv
    have hctx1 : SameCtx b0 (check_n b ptp maxv).2 :=
      hctx.trans (check_n_frame b ptp maxv)
    have h2 : (check_n (check_n b ptp maxv).2 ptp maxv).1 = checkNPure b0 ptp maxv :=
      check_n_spec hko hopen hctx1 ptp maxv
    have hctx2 : SameCtx b0 (check_n (check_n b ptp maxv).2 ptp maxv).2 :=
      hctx1.trans (check_n_frame _ ptp maxv)
    cases hres : checkNPure b0 ptp maxv with
    | none =>
      rw [hres] at h1
      simp only [statePass, passPure, h1, hres]
      exact ih acc _ hctx1
    | some l =>
      rw [hres] at h1 h2
      simp only [statePass, passPure, h1, h2, hres]
      exact ih _ _ hctx2

theorem statePass_frame (maxv : Nat) :
    ∀ (pts acc l : List Nat) (b b' : SimpleGoBoard),
      statePass pts maxv b acc = .ok (l, b') → SameCtx b b' := by
  intro pts
  induction pts with
  | nil =>
    intro acc l b b' h
    simp only [statePass] at h
    cases h
    exact SameCtx.refl b
  | cons ptp rest ih =>
    intro acc l b b' h
    simp only [statePass] at h
    cases h1 : (check_n b ptp maxv).1 with
    | none =>
      rw [h1] at h
      exact (check_n_frame b ptp maxv).trans (ih _ _ _ _ h)
    | some l1 =>
      rw [h1] at h
      cases h2 : (check_n (check_n b ptp maxv).2 ptp maxv).1 with
      | none => rw [h2] at h; cases h
      | some l2 =>
        rw [h2] at h
        exact ((check_n_frame b ptp maxv).trans (check_n_frame _ ptp maxv)).trans
          (ih _ _ _ _ h)

/-- `final + [x for x in l if x not in final]`: the deduplicating append
used throughout `order_the_point`'s assembly. -/
def dedupAppend (acc l : List Nat) : List Nat :=
  acc ++ l.filter (fun x => decide (¬ x ∈ acc))

/-- The list assembly at the tail of `order_the_point`: each bucket is
deduplicated against the accumulated higher-priority buckets
(`final_final_list`), and the remaining legal moves are appended last. -/
def orderAssemble (b4 : SimpleGoBoard) (color : Nat) (f4 f3 f2 f1 : List Nat) : List Nat :=
  dedupAppend (dedupAppend (dedupAppend (dedupAppend f4 f3) f2) f1)
    (generate_legal_moves b4 color)

/-- `order_the_point(color)`.  The two source branches (`color == 2` on
white points, else on black points) are textually identical up to the stone
list; the selection is factored into the first line. -/
def order_the_point (b : SimpleGoBoard) (color : Nat) :
    Except Unit (List Nat × SimpleGoBoard) :=
  match statePass (if color = 2 then where1dEq b WHITE else where1dEq b BLACK) 4 b [] with
  | .error e => .error e
  | .ok (f4, b1) =>
    match statePass (if color = 2 then where1dEq b WHITE else where1dEq b BLACK) 3 b1 [] with
    | .error e => .error e
    | .ok (f3, b2) =>
      match statePass (if color = 2 then where1dEq b WHITE else where1dEq b BLACK) 2 b2 [] with
      | .error e => .error e
      | .ok (f2, b3) =>
        match statePass (if color = 2 then where1dEq b WHITE else where1dEq b BLACK) 1 b3 [] with
        | .error e => .error e
        | .ok (f1, b4) =>
          .ok (orderAssemble b4 color f4 f3 f2 f1, b4)

/-- The stone list scanned by `order_the_point` for a color. -/
def orderPts (b0 : SimpleGoBoard) (color : Nat) : List Nat :=
  if color = 2 then where1dEq b0 WHITE else where1dEq b0 BLACK

/-- Pure twin of `order_the_point` on open positions. -/
def orderPure (b0 : SimpleGoBoard) (color : Nat) : List Nat :=
  orderAssemble b0 color
    (passPure b0 4 (orderPts b0 color) [])
    (passPure b0 3 (orderPts b0 color) [])
    (passPure b0 2 (orderPts b0 color) [])
    (passPure b0 1 (orderPts b0 color) [])

theorem where1dEq_congr {b0 b : SimpleGoBoard} (h : b.board = b0.board) (v : Nat) :
    where1dEq b v = where1dEq b0 v := by
  unfold where1dEq SimpleGoBoard.get
  rw [h]

theorem orderAssemble_congr {b0 b : SimpleGoBoard} (h : b.board = b0.board)
    (color : Nat) (f4 f3 f2 f1 : List Nat) :
    orderAssemble b color f4 f3 f2 f1 = orderAssemble b0 color f4 f3 f2 f1 := by
  unfold orderAssemble generate_legal_moves get_empty_points
  rw [where1dEq_congr h]

theorem order_the_point_spec {b0 : SimpleGoBoard} (hko : b0.ko_recapture = none)
    (hopen : openPosition b0) {b : SimpleGoBoard} (hctx : SameCtx b0 b) (color : Nat) :
    ∃ b', order_the_point b color = .ok (orderPure b0 color, b') ∧ SameCtx b0 b' := by
  have hpts : (if color = 2 then where1dEq b WHITE else where1dEq b BLACK) =
      orderPts b0 color := by
    unfold orderPts
    rw [where1dEq_congr hctx.2.1, where1dEq_congr hctx.2.1]
  obtain ⟨b1, e1, c1⟩ := statePass_spec hko hopen 4 (orderPts b0 color) [] b hctx
  obtain ⟨b2, e2, c2⟩ := statePass_spec hko hopen 3 (orderPts b0 color) [] b1 c1
  obtain ⟨b3, e3, c3⟩ := statePass_spec hko hopen 2 (orderPts b0 color) [] b2 c2
  obtain ⟨b4, e4, c4⟩ := statePass_spec hko hopen 1 (orderPts b0 color) [] b3 c3
  refine ⟨b4, ?_, c4⟩
  unfold order_the_point
  rw [hpts]
  simp only [e1, e2, e3, e4]
  unfold orderPure
  rw [orderAssemble_congr c4.2.1]

theorem order_the_point_frame (b : SimpleGoBoard) (color : Nat) (l : List Nat)
    (b' : SimpleGoBoard) (h : order_the_point b color = .ok (l, b')) : SameCtx b b' := by
  unfold order_the_point at h
  split at h
  next e heq => cases h
  next f4 b1 heq1 =>
    split at h
    next e heq => cases h
    next f3 b2 heq2 =>
      split at h
      next e heq => cases h
      next f2 b3 heq3 =>
        split at h
        next e heq => cases h
        next f1 b4 heq4 =>
          cases h
          exact (((statePass_frame 4 _ _ _ _ _ heq1).trans
            (statePass_frame 3 _ _ _ _ _ heq2)).trans
              (statePass_frame 2 _ _ _ _ _ heq3)).trans
                (statePass_frame 1 _ _ _ _ _ heq4)

/-- C10: The scan operations leave every grid cell and `current_player`
unchanged at return.  `check_game_end_gomoku`, `open_four` and
`block_open_four` are read-only in the source and are embedded as pure
functions; the two stateful scans — `order_the_point` and its candidate test
`is_legal`, which temporarily writes the candidate cell and restores it to
EMPTY on every path — are proved to return the grid and `current_player`
exactly as found (only the `liberty_of` cache may change). -/
theorem scans_preserve_board (b : SimpleGoBoard) (color : Nat) (ptq : Option Nat) (c : Nat) :
    (∀ l b', order_the_point b color = .ok (l, b') →
      b'.board = b.board ∧ b'.current_player = b.current_player) ∧
    ((is_legal b ptq c).2.board = b.board ∧
      (is_legal b ptq c).2.current_player = b.current_player) := by
  constructor
  · intro l b' h
    have hctx := order_the_point_frame b color l b' h
    exact ⟨hctx.2.1, hctx.2.2.1⟩
  · have hctx := is_legal_frame b ptq c
    exact ⟨hctx.2.1, hctx.2.2.1⟩

/-- Witness for C10 at a concrete input: a full `order_the_point` run (and an
`is_legal` probe) on the `.XXX.` board returns the grid and player
untouched. -/
theorem scans_preserve_board_witness :
    (∃ l b', order_the_point c5Board BLACK = .ok (l, b') ∧
      b'.board = c5Board.board ∧ b'.current_player = c5Board.current_player) ∧
    (is_legal c5Board (some (pt 7 1 1)) BLACK).2.board = c5Board.board := by
  constructor
  · cases hres : order_the_point c5Board BLACK with
    | error e =>
      obtain ⟨bx, ex, _⟩ := order_the_point_spec (by decide) (by decide)
        (SameCtx.refl c5Board) BLACK
      rw [ex] at hres
      cases hres
    | ok r =>
      obtain ⟨l0, b0'⟩ := r
      have h := (scans_preserve_board c5Board BLACK none BLACK).1 l0 b0' hres
      exact ⟨l0, b0', rfl, h.1, h.2⟩
  · exact (scans_preserve_board c5Board BLACK (some (pt 7 1 1)) BLACK).2.1

/-! ### The minimax solver (`gtp_connection.minimax`)

The wall-clock comparison `time_Used > self.time` is abstracted as the
Boolean oracle `tl` ("the configured limit is exceeded"); the theorems hold
for each fixed value, and C2 is proved for both.  `whosturn('or') = True`
becomes the Boolean `orTurn`.  Python's heterogeneous return pairs
(`True/False/"draw"/"unknown"` paired with `False/True/1/move`) become
`MMStatus × MSnd`.  Recursion is by explicit fuel (the search always
terminates because every ply fills a cell; fuel exhaustion is marked
`Except.error` and never occurs in the theorems' runs). -/

inductive MMStatus where
  | win
  | lose
  | draw
  | unknown
deriving DecidableEq, Repr

/-- Second component of a minimax return value: a Python bool
(`False`/`True`) or an int (`1` or a move index). -/
abbrev MSnd := Sum Bool Nat

deriving instance DecidableEq for Except

/-- Modelled from the spec: `GoBoardUtil.generate_legal_moves_gomoku` from
the missing `board_util.py`; the spec's `legal_moves()` is "all EMPTY
cells". -/
def generate_legal_moves_gomoku (b : SimpleGoBoard) : List Nat := get_empty_points b

/-- The `for move in moves` loop of `minimax`, parametrized by the recursive
call `rec` (the next-depth solver).  The two `if if_finish` early returns are
encoded as the two leading conditions; note that an AND-node facing a
finished game NOT won by `color` falls through with the move still on the
board, exactly as in the source.  After the loop: first drawn move if any,
else `(False,False)` for an OR node and `(True,True)` for an AND node. -/
def mmLoop (tl : Bool) (color toPlay : Nat) (orTurn : Bool)
    (rec : SimpleGoBoard → Nat → Bool → Except Unit ((MMStatus × MSnd) × SimpleGoBoard)) :
    SimpleGoBoard → List Nat → List Nat →
      Except Unit ((MMStatus × MSnd) × SimpleGoBoard)
  | b, [], drawList =>
    match drawList with
    | m :: _ => .ok ((.draw, Sum.inr m), b)
    | [] =>
      if orTurn then .ok ((.lose, Sum.inl false), b)
      else .ok ((.win, Sum.inl true), b)
  | b, move :: rest, drawList =>
    if (checkGameEndGomoku (playMoveGomoku b move color).2).1 ∧ orTurn then
      .ok ((.win, Sum.inr move), undo (playMoveGomoku b move color).2 move)
    else if (checkGameEndGomoku (playMoveGomoku b move color).2).1 ∧ ¬ orTurn ∧
        (checkGameEndGomoku (playMoveGomoku b move color).2).2 = some color then
      .ok ((.lose, Sum.inl false), undo (playMoveGomoku b move color).2 move)
    else if generate_legal_moves_gomoku (playMoveGomoku b move color).2 = [] then
      .ok ((.draw, Sum.inr move), undo (playMoveGomoku b move color).2 move)
    else
      match rec (playMoveGomoku b move color).2 toPlay (!orTurn) with
      | .error e => .error e
      | .ok (mm, bc) =>
        if tl then .ok ((.unknown, Sum.inl false), undo bc move)
        else if orTurn ∧ mm.1 = .win then .ok ((.win, Sum.inr move), undo bc move)
        else if (¬ orTurn) ∧ mm.1 = .lose then .ok ((.lose, Sum.inl false), undo bc move)
        else if mm.1 = .unknown then .ok ((.unknown, Sum.inl false), undo bc move)
        else
          mmLoop tl color toPlay orTurn rec (undo bc move) rest
            (if mm.1 = .draw then drawList ++ [move] else drawList)

/-- `minimax(board, color, turn)`.  The already-finished check resolves
relative to the node tag; otherwise the ordered moves are searched. -/
def minimax (tl : Bool) : Nat → SimpleGoBoard → Nat → Bool →
    Except Unit ((MMStatus × MSnd) × SimpleGoBoard)
  | 0, _, _, _ => .error ()
  | fuel + 1, b, color, orTurn =>
    if (checkGameEndGomoku b).1 then
      if orTurn then
        if (checkGameEndGomoku b).2 ≠ some color then .ok ((.lose, Sum.inl false), b)
        else .ok ((.win, Sum.inr 1), b)
      else .ok ((.lose, Sum.inl false), b)
    else
      match order_the_point b color with
      | .error e => .error e
      | .ok (moves, b1) =>
        if moves = [] then .ok ((.draw, Sum.inl false), b1)
        else
          mmLoop tl color (if color = 1 then 2 else 1) orTurn
            (fun b' c' o' => minimax tl fuel b' c' o') b1 moves []

/-! ### C6: unknown propagation and the placement of the time check -/

/-- The board with five black stones in row 1 on a 5×5 board: the game is
already decided. -/
def c6Board : SimpleGoBoard :=
  (playMoveGomoku (playMoveGomoku (playMoveGomoku (playMoveGomoku (playMoveGomoku
    (resetBoard 5) (pt 5 1 1) BLACK).2 (pt 5 1 2) BLACK).2 (pt 5 1 3) BLACK).2
    (pt 5 1 4) BLACK).2 (pt 5 1 5) BLACK).2

/-- C6 as stated is false in its "returns unknown immediately once elapsed
time exceeds the limit" part: a call on an already-finished position returns
its win/loss verdict without ever consulting the clock.  With the limit
already exceeded (`tl = true`), `minimax` on a decided board returns
`(True, 1)` — a win, not unknown. -/
theorem minimax_timeout_counterexample :
    minimax true 1 c6Board BLACK true = .ok ((MMStatus.win, Sum.inr 1), c6Board) ∧
    MMStatus.win ≠ MMStatus.unknown := by
  constructor
  · decide
  · decide

/-- C6 amended: the elapsed-time check runs after each child subtree
returns; when the head move of the list leads to a child call that returns
unknown — or when the time check fires there (`tl = true`) — the node
returns `("unknown", False)` at once, with a result (including the final
board) that does not depend on the remaining sibling moves `rest`, which are
therefore never evaluated; the unknown is not reinterpreted as win, loss or
draw.  (A call at an already-terminal position still returns its verdict
without a time check — see the counterexample.) -/
theorem minimax_unknown_propagation (tl : Bool) (color toPlay : Nat) (orTurn : Bool)
    (rec : SimpleGoBoard → Nat → Bool → Except Unit ((MMStatus × MSnd) × SimpleGoBoard))
    (b : SimpleGoBoard) (move : Nat) (rest drawList : List Nat)
    (st : MMStatus) (v : MSnd) (bc : SimpleGoBoard)
    (hnf : (checkGameEndGomoku (playMoveGomoku b move color).2).1 = false)
    (hlegal : generate_legal_moves_gomoku (playMoveGomoku b move color).2 ≠ [])
    (hchild : rec (playMoveGomoku b move color).2 toPlay (!orTurn) = .ok ((st, v), bc))
    (htrig : st = MMStatus.unknown ∨ tl = true) :
    mmLoop tl color toPlay orTurn rec b (move :: rest) drawList =
      .ok ((MMStatus.unknown, Sum.inl false), undo bc move) := by
  simp only [mmLoop]
  rw [if_neg (by rw [hnf]; simp), if_neg (by rw [hnf]; simp), if_neg hlegal, hchild]
  rcases htrig with hst | htl
  · subst hst
    cases tl with
    | true => rfl
    | false => simp
  · subst htl
    rfl

/-- Witness for C6's amended theorem at a concrete input: a fresh 2×2 board,
a constant recursive oracle answering unknown. -/
theorem minimax_unknown_propagation_witness :
    mmLoop false 1 2 true (fun b' _ _ => .ok ((MMStatus.unknown, Sum.inl false), b'))
      (resetBoard 2) (pt 2 1 1 :: [pt 2 2 2]) [] =
      .ok ((MMStatus.unknown, Sum.inl false),
        undo (playMoveGomoku (resetBoard 2) (pt 2 1 1) 1).2 (pt 2 1 1)) :=
  minimax_unknown_propagation false 1 2 true _ (resetBoard 2) (pt 2 1 1) [pt 2 2 2] []
    MMStatus.unknown (Sum.inl false) (playMoveGomoku (resetBoard 2) (pt 2 1 1) 1).2
    (by decide) (by decide) rfl (Or.inl rfl)


/-! ### C2: the solver finds an immediate completion of an open four

The plan: on an open position the stateful `order_the_point` agrees with
`orderPure` (proved above); every cell collected into the `final_4` bucket is
an empty cell whose filling gives its color five in a row (the probes of
`direction_check_connect_gomoko` at `count == max` with `max = 4` are exactly
the two extensions of a four-run); under the claim's hypotheses the bucket is
nonempty, so the head of the ordered move list wins immediately and the `for`
loop of `minimax` returns `("win", move)` on its first iteration, before any
time check. -/

/-- The terminal scan reads only the grid contents. -/
theorem get_congr {b0 b : SimpleGoBoard} (h : b.board = b0.board) (p : Nat) :
    b.get p = b0.get p := by
  unfold SimpleGoBoard.get
  rw [h]

theorem connectLoopF_congr {b0 b : SimpleGoBoard} (h : b.board = b0.board) (c d : Nat) :
    ∀ fuel p count, connectLoopF b c p d count fuel = connectLoopF b0 c p d count fuel := by
  intro fuel
  induction fuel with
  | zero => intro p count; rfl
  | succ f ih =>
    intro p count
    simp only [connectLoopF, get_congr h]
    by_cases hc : b0.get (p + d) = c
    · rw [if_pos hc, if_pos hc]
      by_cases h5 : count + 1 = 5
      · rw [if_pos h5, if_pos h5]
      · rw [if_neg h5, if_neg h5, ih]
    · rw [if_neg hc, if_neg hc]

theorem connectLoopB_congr {b0 b : SimpleGoBoard} (h : b.board = b0.board) (c d : Nat) :
    ∀ fuel p count, connectLoopB b c p d count fuel = connectLoopB b0 c p d count fuel := by
  intro fuel
  induction fuel with
  | zero => intro p count; rfl
  | succ f ih =>
    intro p count
    simp only [connectLoopB, get_congr h]
    by_cases hc : b0.get (p - d) = c
    · rw [if_pos hc, if_pos hc]
      by_cases h5 : count + 1 = 5
      · rw [if_pos h5, if_pos h5]
      · rw [if_neg h5, if_neg h5, ih]
    · rw [if_neg hc, if_neg hc]

theorem pdc_congr {b0 b : SimpleGoBoard} (h : b.board = b0.board) (point shift : Nat) :
    pointDirectionCheckConnectGomoko b point shift =
      pointDirectionCheckConnectGomoko b0 point shift := by
  unfold pointDirectionCheckConnectGomoko
  simp only [get_congr h, h, connectLoopF_congr h, connectLoopB_congr h]

theorem pointCheckGameEnd_congr {b0 b : SimpleGoBoard} (hB : b.board = b0.board)
    (hS : b.size = b0.size) (point : Nat) :
    pointCheckGameEndGomoku b point = pointCheckGameEndGomoku b0 point := by
  unfold pointCheckGameEndGomoku SimpleGoBoard.NS
  rw [hS]
  simp only [pdc_congr hB]

/-- `check_game_end_gomoku` depends only on the grid and the size. -/
theorem checkGameEnd_congr {b0 b : SimpleGoBoard} (hB : b.board = b0.board)
    (hS : b.size = b0.size) :
    checkGameEndGomoku b = checkGameEndGomoku b0 := by
  have hp : pointCheckGameEndGomoku b = pointCheckGameEndGomoku b0 :=
    funext (pointCheckGameEnd_congr hB hS)
  unfold checkGameEndGomoku anyConnect5
  simp only [where1dEq_congr hB, hp]

/-- A black 5-run makes the terminal check fire (whoever it then names as
winner). -/
theorem checkGameEnd_of_run5 {b : SimpleGoBoard} (hb : WF b) (h : hasRun5 b BLACK) :
    (checkGameEndGomoku b).1 = true := by
  have hB := (anyConnect5_iff b hb BLACK (Or.inl rfl)).mpr h
  unfold checkGameEndGomoku
  by_cases hw : anyConnect5 b WHITE = true
  · rw [if_pos hw]
  · rw [if_neg hw, if_pos hB]

/-- Placing a stone of a legal color on an empty cell preserves
well-formedness. -/
theorem WF_placed {b : SimpleGoBoard} (hb : WF b) {m : Nat} (hm : b.get m = EMPTY) :
    WF (placed b m BLACK) := by
  have hmp := empty_playable hb hm
  obtain ⟨hlen, hsz, hcells⟩ := hb
  refine ⟨?_, hsz, ?_⟩
  · show (b.board.set m BLACK).length = maxpoint b.size
    rw [List.length_set]
    exact hlen
  · intro p hp
    have hp' : p < b.board.length := by
      have hl : (placed b m BLACK).board.length = b.board.length := by
        show (b.board.set m BLACK).length = b.board.length
        exact List.length_set b.board m BLACK
      omega
    by_cases hpm : p = m
    · subst hpm
      constructor
      · intro _
        exact Or.inr (Or.inl (placed_get_self b BLACK hp'))
      · intro hnp
        have hnp' : isPlayable b.size p = false := hnp
        rw [hmp.1] at hnp'
        cases hnp'
    · constructor
      · intro hpl
        rw [placed_get_ne b BLACK hpm]
        exact (hcells p hp').1 hpl
      · intro hpl
        rw [placed_get_ne b BLACK hpm]
        exact (hcells p hp').2 hpl

/-- "Filling `w` gives `c` five in a row": the conjunction collected for each
probe cell of the `count == max` checks with `max = 4`. -/
def completesFive (b : SimpleGoBoard) (c w : Nat) : Prop :=
  b.get w = EMPTY ∧ hasRun5 (placed b w c) c

/-- A five-window with one empty slot `w` and stones elsewhere becomes a
5-run once `w` is filled. -/
theorem hasRun5_placed_of_window {b : SimpleGoBoard} {d w : Nat} (hd : d ∈ dirsOf b)
    (u i0 : Nat) (hu : u < b.board.length) (hw : b.get w = EMPTY)
    (hi0 : i0 ≤ 4) (hslot : u + i0 * d = w) (hd1 : 1 ≤ d) (c : Nat)
    (hcells : ∀ i, i ≤ 4 → i ≠ i0 → b.get (u + i * d) = c) :
    hasRun5 (placed b w c) c := by
  have hwlt : w < b.board.length := get_lt_of_ne_border hw (by decide)
  refine ⟨u, ?_, d, hd, ?_⟩
  · show u < (b.board.set w c).length
    rw [List.length_set]
    exact hu
  · intro i hi
    by_cases hieq : i = i0
    · subst hieq
      rw [hslot]
      exact placed_get_self b c hwlt
    · have hne : u + i * d ≠ w := by
        rw [← hslot]
        intro heq
        have h2 : i * d = i0 * d := by omega
        exact hieq (Nat.eq_of_mul_eq_mul_right hd1 h2)
      rw [placed_get_ne b c hne]
      exact hcells i hi hieq


/-- Invariant run of the forward loop of `direction_check_connect_gomoko`
with `max = 4`: entered on a growing run of `count` stones starting at `s`,
it only ever reports probe cells that complete a five, and its final count
still bounds a run of stones from `s`. -/
theorem dccFwdPure_completes {b : SimpleGoBoard} (hb : WF b) {d : Nat} (hd : d ∈ dirsOf b)
    (s : Nat) :
    ∀ fuel p count, 1 ≤ count → p = s + (count - 1) * d →
      (∀ i, i < count → b.get (s + i * d) = BLACK) →
      (∀ i, i < (dccFwdPure b BLACK s d 4 p count fuel).1 → b.get (s + i * d) = BLACK) ∧
      (∀ w, w ∈ (dccFwdPure b BLACK s d 4 p count fuel).2 → completesFive b BLACK w) := by
  have hdb := dir_bounds hb hd
  intro fuel
  induction fuel with
  | zero =>
    intro p count h1 hp hstones
    exact ⟨hstones, fun w hw => absurd hw (List.not_mem_nil w)⟩
  | succ f ih =>
    intro p count h1 hp hstones
    obtain ⟨c0, rfl⟩ : ∃ c0, count = c0 + 1 := ⟨count - 1, by omega⟩
    have hp' : p = s + c0 * d := by simpa using hp
    simp only [dccFwdPure]
    by_cases hcell : b.get (p + d) = BLACK
    · rw [if_pos hcell]
      have hpd : p + d = s + (c0 + 1) * d := by rw [hp']; ring
      have hstones' : ∀ i, i < c0 + 1 + 1 → b.get (s + i * d) = BLACK := by
        intro i hi
        rcases Nat.lt_or_ge i (c0 + 1) with hlt | hge
        · exact hstones i hlt
        · have hieq : i = c0 + 1 := by omega
          subst hieq
          rw [← hpd]
          exact hcell
      by_cases hmax : c0 + 1 + 1 = 4
      · rw [if_pos hmax]
        have hc0 : c0 = 2 := by omega
        subst hc0
        have h0 : b.get s = BLACK := by simpa using hstones' 0 (by omega)
        have hslt : s < b.board.length := get_lt_of_ne_border h0 (by decide)
        have hs_ge := (playable_bounds (stone_playable hb (Or.inl rfl) h0).1).1
        by_cases hp1 : b.get (p + d + d) = EMPTY
        · rw [if_pos hp1]
          refine ⟨fun i hi => hstones' i hi, ?_⟩
          intro w hw
          have hwc := List.mem_singleton.mp hw
          subst hwc
          refine ⟨hp1, ?_⟩
          refine hasRun5_placed_of_window hd s 4 hslt hp1 (by omega)
            (by rw [hp']; ring) hdb.1 BLACK ?_
          intro i hi hine
          exact hstones' i (by omega)
        · rw [if_neg hp1]
          by_cases hp2 : b.get (s - d) = EMPTY
          · rw [if_pos hp2]
            refine ⟨fun i hi => hstones' i hi, ?_⟩
            intro w hw
            have hwc := List.mem_singleton.mp hw
            subst hwc
            refine ⟨hp2, ?_⟩
            refine hasRun5_placed_of_window hd (s - d) 0
              (get_lt_of_ne_border hp2 (by decide)) hp2 (by omega) (by simp)
              hdb.1 BLACK ?_
            intro i hi hine
            obtain ⟨j, rfl⟩ : ∃ j, i = j + 1 := ⟨i - 1, by omega⟩
            have e : s - d + (j + 1) * d = s + j * d := by
              have h2 : (j + 1) * d = j * d + d := by ring
              omega
            rw [e]
            exact hstones' j (by omega)
          · rw [if_neg hp2]
            exact ⟨fun i hi => hstones' i hi,
              fun w hw => absurd hw (List.not_mem_nil w)⟩
      · rw [if_neg hmax]
        refine ih (p + d) (c0 + 1 + 1) (by omega) ?_ hstones'
        rw [hp']
        have e : c0 + 1 + 1 - 1 = c0 + 1 := by omega
        rw [e]
        ring
    · rw [if_neg hcell]
      exact ⟨hstones, fun w hw => absurd hw (List.not_mem_nil w)⟩

/-- Same for the backward loop: entered on a run of `count` stones starting
at `p` and walking downward, its probe cells complete a five. -/
theorem dccBwdPure_completes {b : SimpleGoBoard} (hb : WF b) {d : Nat} (hd : d ∈ dirsOf b)
    (ptA : Nat) :
    ∀ fuel p count, (∀ i, i < count → b.get (p + i * d) = BLACK) →
      ∀ w, w ∈ (dccBwdPure b BLACK ptA d 4 p count fuel).2 → completesFive b BLACK w := by
  have hdb := dir_bounds hb hd
  intro fuel
  induction fuel with
  | zero =>
    intro p count hstones w hw
    exact absurd hw (List.not_mem_nil w)
  | succ f ih =>
    intro p count hstones w hw
    simp only [dccBwdPure] at hw
    by_cases hcell : b.get (p - d) = BLACK
    · rw [if_pos hcell] at hw
      have hged := (playable_bounds (stone_playable hb (Or.inl rfl) hcell).1).1
      by_cases hmax : count + 1 = 4
      · rw [if_pos hmax] at hw
        have hc3 : count = 3 := by omega
        subst hc3
        by_cases hw0 : b.get (p - d - d) = EMPTY
        · rw [if_pos hw0] at hw
          have hwc := List.mem_singleton.mp hw
          subst hwc
          refine ⟨hw0, ?_⟩
          refine hasRun5_placed_of_window hd (p - d - d) 0
            (get_lt_of_ne_border hw0 (by decide)) hw0 (by omega) (by simp)
            hdb.1 BLACK ?_
          intro i hi hine
          rcases Nat.lt_or_ge i 2 with hi2 | hi2
          · have hieq : i = 1 := by omega
            subst hieq
            have e : p - d - d + 1 * d = p - d := by omega
            rw [e]
            exact hcell
          · obtain ⟨j, rfl⟩ : ∃ j, i = j + 2 := ⟨i - 2, by omega⟩
            have e : p - d - d + (j + 2) * d = p + j * d := by
              have h3 : (j + 2) * d = j * d + d + d := by ring
              omega
            rw [e]
            exact hstones j (by omega)
        · rw [if_neg hw0] at hw
          exact absurd hw (List.not_mem_nil w)
      · rw [if_neg hmax] at hw
        refine ih (p - d) (count + 1) ?_ w hw
        intro i hi
        cases i with
        | zero => simpa using hcell
        | succ j =>
          have e : p - d + (j + 1) * d = p + j * d := by
            have h2 : (j + 1) * d = j * d + d := by ring
            omega
          rw [e]
          exact hstones j (by omega)
    · rw [if_neg hcell] at hw
      exact absurd hw (List.not_mem_nil w)

/-- Every `pointWin` cell collected by `direction_check_connect_gomoko` with
`max = 4` at a black stone completes a black five. -/
theorem dccPure_completes {b : SimpleGoBoard} (hb : WF b) {point d : Nat}
    (hd : d ∈ dirsOf b) (hpt : b.get point = BLACK) :
    ∀ w, w ∈ (dccPure b point d 4).2 → completesFive b BLACK w := by
  intro w hw
  unfold dccPure at hw
  rw [hpt] at hw
  have hstones1 : ∀ i, i < 1 → b.get (point + i * d) = BLACK := by
    intro i hi
    have hieq : i = 0 := by omega
    subst hieq
    simpa using hpt
  have hf := dccFwdPure_completes hb hd point b.board.length point 1 (by omega)
    (by simp) hstones1
  rcases List.mem_append.mp hw with h | h
  · exact hf.2 w h
  · exact dccBwdPure_completes hb hd point b.board.length point
      (dccFwdPure b BLACK point d 4 point 1 b.board.length).1 hf.1 w h


/-- Everything in the accumulator or contributed by a direction of
`check_n(point, 4)` at a black stone completes a black five. -/
theorem checkNPureLoop_completes {b : SimpleGoBoard} (hb : WF b) {point : Nat}
    (hpt : b.get point = BLACK) :
    ∀ (ds acc : List Nat), (∀ d, d ∈ ds → d ∈ dirsOf b) →
      (∀ w, w ∈ acc → completesFive b BLACK w) →
      ∀ w, w ∈ checkNPureLoop b point 4 ds acc → completesFive b BLACK w := by
  intro ds
  induction ds with
  | nil => intro acc _ hacc w hw; exact hacc w hw
  | cons d rest ih =>
    intro acc hds hacc w hw
    simp only [checkNPureLoop] at hw
    refine ih _ (fun d' hd' => hds d' (List.mem_cons_of_mem d hd')) ?_ w hw
    intro w' hw'
    by_cases hflag : (dccPure b point d 4).1 = true
    · rw [if_pos hflag] at hw'
      rcases List.mem_append.mp hw' with h | h
      · exact hacc w' h
      · exact dccPure_completes hb (hds d (List.mem_cons_self d rest)) hpt w' h
    · rw [if_neg hflag] at hw'
      exact hacc w' hw'

theorem checkNPure_completes {b : SimpleGoBoard} (hb : WF b) {point : Nat}
    (hpt : b.get point = BLACK) {l : List Nat} (h : checkNPure b point 4 = some l) :
    ∀ w, w ∈ l → completesFive b BLACK w := by
  unfold checkNPure at h
  split at h
  · cases h
  · cases h
    intro w hw
    rw [dedupKeepFirst_mem] at hw
    exact checkNPureLoop_completes hb hpt (dirsOf b) [] (fun d hd => hd)
      (fun w' hw' => absurd hw' (List.not_mem_nil w')) w hw

/-- Everything collected into the `final_4` bucket at black stones completes
a black five. -/
theorem passPure_completes {b : SimpleGoBoard} (hb : WF b) :
    ∀ (pts acc : List Nat), (∀ q, q ∈ pts → b.get q = BLACK) →
      (∀ w, w ∈ acc → completesFive b BLACK w) →
      ∀ w, w ∈ passPure b 4 pts acc → completesFive b BLACK w := by
  intro pts
  induction pts with
  | nil => intro acc _ hacc w hw; exact hacc w hw
  | cons q rest ih =>
    intro acc hpts hacc w hw
    simp only [passPure] at hw
    cases hres : checkNPure b q 4 with
    | none =>
      rw [hres] at hw
      exact ih _ (fun q' h => hpts q' (List.mem_cons_of_mem q h)) hacc w hw
    | some l =>
      rw [hres] at hw
      refine ih _ (fun q' h => hpts q' (List.mem_cons_of_mem q h)) ?_ w hw
      intro w' hw'
      rcases List.mem_append.mp hw' with h | h
      · exact hacc w' h
      · exact checkNPure_completes hb (hpts q (List.mem_cons_self q rest)) hres w'
          (List.mem_filter.mp h).1

/-- Concrete run of the forward loop on a four-run `s, s+d, s+2d, s+3d`: the
count reaches `max = 4` on the third step and the two probes are the cell
beyond the far end and the cell before `s`. -/
theorem dccFwdPure_scenario {b : SimpleGoBoard} {s d : Nat}
    (h1 : b.get (s + d) = BLACK) (h2 : b.get (s + d + d) = BLACK)
    (h3 : b.get (s + d + d + d) = BLACK) :
    ∀ fuel, 3 ≤ fuel →
      dccFwdPure b BLACK s d 4 s 1 fuel =
        (4, if b.get (s + d + d + d + d) = EMPTY then [s + d + d + d + d]
            else if b.get (s - d) = EMPTY then [s - d] else []) := by
  have step : ∀ p count k, dccFwdPure b BLACK s d 4 p count (k + 1) =
      if b.get (p + d) = BLACK then
        if count + 1 = 4 then
          if b.get (p + d + d) = EMPTY then (count + 1, [p + d + d])
          else if b.get (s - d) = EMPTY then (count + 1, [s - d])
          else (count + 1, [])
        else dccFwdPure b BLACK s d 4 (p + d) (count + 1) k
      else (count, []) := fun p count k => rfl
  intro fuel hf
  obtain ⟨f, rfl⟩ : ∃ f, fuel = f + 1 + 1 + 1 := ⟨fuel - 3, by omega⟩
  rw [step s 1 (f + 1 + 1), if_pos h1, if_neg (by omega : ¬(1 + 1 = 4))]
  rw [step (s + d) (1 + 1) (f + 1), if_pos h2, if_neg (by omega : ¬(1 + 1 + 1 = 4))]
  rw [step (s + d + d) (1 + 1 + 1) f, if_pos h3,
    if_pos (by omega : 1 + 1 + 1 + 1 = 4)]
  by_cases hA : b.get (s + d + d + d + d) = EMPTY
  · rw [if_pos hA, if_pos hA]
  · rw [if_neg hA, if_neg hA]
    by_cases hB : b.get (s - d) = EMPTY
    · rw [if_pos hB, if_pos hB]
    · rw [if_neg hB, if_neg hB]

/-- The backward loop stops at once when the cell below is not a stone of
the color. -/
theorem dccBwdPure_stop {b : SimpleGoBoard} {s d count : Nat}
    (h : b.get (s - d) ≠ BLACK) (ptA : Nat) :
    ∀ fuel, 1 ≤ fuel → dccBwdPure b BLACK ptA d 4 s count fuel = (count, []) := by
  intro fuel hf
  obtain ⟨f, rfl⟩ : ∃ f, fuel = f + 1 := ⟨fuel - 1, by omega⟩
  simp only [dccBwdPure]
  rw [if_neg h]

/-- On a black four-run whose lower extension is not black (so the backward
walk adds nothing), `direction_check_connect_gomoko(point, d, 4)` reports a
hit, and its `pointWin` list is nonempty as soon as either extension is
empty. -/
theorem dccPure_scenario {b : SimpleGoBoard} (hb : WF b) {s d : Nat}
    (h0 : b.get s = BLACK) (h1 : b.get (s + d) = BLACK)
    (h2 : b.get (s + d + d) = BLACK) (h3 : b.get (s + d + d + d) = BLACK)
    (hnb : b.get (s - d) ≠ BLACK)
    (hwin : b.get (s + d + d + d + d) = EMPTY ∨ b.get (s - d) = EMPTY) :
    (dccPure b s d 4).1 = true ∧ (dccPure b s d 4).2 ≠ [] := by
  have hlen : 13 ≤ b.board.length := board_len_ge hb
  have hfwd := dccFwdPure_scenario h1 h2 h3 b.board.length (by omega)
  unfold dccPure
  rw [h0, hfwd, dccBwdPure_stop hnb s b.board.length (by omega)]
  constructor
  · rfl
  · show (if b.get (s + d + d + d + d) = EMPTY then [s + d + d + d + d]
      else if b.get (s - d) = EMPTY then [s - d] else []) ++ [] ≠ []
    rcases hwin with hw | hw
    · rw [if_pos hw]
      simp
    · by_cases hfst : b.get (s + d + d + d + d) = EMPTY
      · rw [if_pos hfst]
        simp
      · rw [if_neg hfst, if_pos hw]
        simp

theorem checkNPureLoop_acc_ne {b : SimpleGoBoard} {point maxv : Nat} :
    ∀ (ds acc : List Nat), acc ≠ [] → checkNPureLoop b point maxv ds acc ≠ [] := by
  intro ds
  induction ds with
  | nil => intro acc h; exact h
  | cons d rest ih =>
    intro acc h
    simp only [checkNPureLoop]
    apply ih
    by_cases hflag : (dccPure b point d maxv).1 = true
    · rw [if_pos hflag]
      intro hcon
      exact h (List.append_eq_nil.mp hcon).1
    · rw [if_neg hflag]
      exact h

theorem checkNPureLoop_ne {b : SimpleGoBoard} {point maxv d : Nat}
    (hflag : (dccPure b point d maxv).1 = true)
    (hwins : (dccPure b point d maxv).2 ≠ []) :
    ∀ (ds acc : List Nat), d ∈ ds → checkNPureLoop b point maxv ds acc ≠ [] := by
  intro ds
  induction ds with
  | nil => intro acc h; cases h
  | cons d' rest ih =>
    intro acc hmem
    rcases List.mem_cons.mp hmem with heq | hmem'
    · subst heq
      simp only [checkNPureLoop]
      apply checkNPureLoop_acc_ne
      rw [if_pos hflag]
      intro hcon
      exact hwins (List.append_eq_nil.mp hcon).2
    · simp only [checkNPureLoop]
      exact ih _ hmem'

theorem checkNPure_some_ne_nil {b : SimpleGoBoard} {point maxv : Nat} {l : List Nat}
    (h : checkNPure b point maxv = some l) : l ≠ [] := by
  unfold checkNPure at h
  split at h
  · cases h
  next hcond =>
    cases h
    exact dedupKeepFirst_ne_nil hcond

theorem passPure_acc_ne {b : SimpleGoBoard} {maxv : Nat} :
    ∀ (pts acc : List Nat), acc ≠ [] → passPure b maxv pts acc ≠ [] := by
  intro pts
  induction pts with
  | nil => intro acc h; exact h
  | cons q rest ih =>
    intro acc h
    simp only [passPure]
    cases hres : checkNPure b q maxv with
    | none => exact ih _ h
    | some l =>
      apply ih
      intro hcon
      exact h (List.append_eq_nil.mp hcon).1

/-- A stone whose `check_n` contributes makes the whole bucket nonempty. -/
theorem passPure_ne {b : SimpleGoBoard} {maxv : Nat} :
    ∀ (pts acc : List Nat) (q : Nat), q ∈ pts → checkNPure b q maxv ≠ none →
      passPure b maxv pts acc ≠ [] := by
  intro pts
  induction pts with
  | nil => intro acc q h; cases h
  | cons q0 rest ih =>
    intro acc q hmem hq
    simp only [passPure]
    rcases List.mem_cons.mp hmem with heq | hmem'
    · subst heq
      cases hres : checkNPure b q maxv with
      | none => exact absurd hres hq
      | some l =>
        apply passPure_acc_ne
        have hl := checkNPure_some_ne_nil hres
        intro hcon
        rcases List.append_eq_nil.mp hcon with ⟨ha, hfil⟩
        subst ha
        cases l with
        | nil => exact hl rfl
        | cons x xs => simp at hfil
    · cases hres : checkNPure b q0 maxv with
      | none => exact ih _ q hmem' hq
      | some l => exact ih _ q hmem' hq

/-- When the `final_4` bucket is nonempty its head leads the whole ordered
move list. -/
theorem orderPure_head {b : SimpleGoBoard} {color m : Nat} {t : List Nat}
    (h : passPure b 4 (orderPts b color) [] = m :: t) :
    ∃ rest, orderPure b color = m :: rest := by
  unfold orderPure orderAssemble dedupAppend
  rw [h]
  simp only [List.cons_append]
  exact ⟨_, rfl⟩


/-- C2 amended: on every well-formed open position with no ko restriction in
which BLACK has four stones in a line `s, s+d, s+2d, s+3d` along a scan axis,
an empty completing cell at either end, and a game that has not yet ended,
`minimax` invoked for BLACK at an OR node — under any time-limit verdict and
any positive fuel — returns the win outcome together with SOME empty cell
whose filling gives BLACK five in a row, and hands the caller's grid back
unchanged.  The returned cell need not be the given completing cell when
several completions exist (see the counterexample), which is the corrected
part of the claim. -/
theorem minimax_wins_on_open_four (tl : Bool) (fuel : Nat) {b : SimpleGoBoard}
    (hb : WF b) (hko : b.ko_recapture = none) (hopen : openPosition b)
    (hne : (checkGameEndGomoku b).1 = false) {d : Nat} (hd : d ∈ dirsOf b)
    {s : Nat} (hstones : ∀ i, i ≤ 3 → b.get (s + i * d) = BLACK)
    {x : Nat} (hx : x = s + 4 * d ∨ x + d = s) (hemp : b.get x = EMPTY)
    (hfuel : 1 ≤ fuel) :
    ∃ m b', minimax tl fuel b BLACK true = .ok ((MMStatus.win, Sum.inr m), b') ∧
      b'.board = b.board ∧ b.get m = EMPTY ∧ hasRun5 (placed b m BLACK) BLACK := by
  obtain ⟨f, rfl⟩ : ∃ f, fuel = f + 1 := ⟨fuel - 1, by omega⟩
  -- the four stones, in the raw cell forms produced by the loop unfoldings
  have h0 : b.get s = BLACK := by simpa using hstones 0 (by omega)
  have h1 : b.get (s + d) = BLACK := by simpa using hstones 1 (by omega)
  have h2 : b.get (s + d + d) = BLACK := by
    have e : s + d + d = s + 2 * d := by ring
    rw [e]
    exact hstones 2 (by omega)
  have h3 : b.get (s + d + d + d) = BLACK := by
    have e : s + d + d + d = s + 3 * d := by ring
    rw [e]
    exact hstones 3 (by omega)
  have hs_stone := stone_playable hb (Or.inl rfl) h0
  have hs_ge := (playable_bounds hs_stone.1).1
  have hdb := dir_bounds hb hd
  -- the cell below the run is not black, else the game would already be over
  have hnb : b.get (s - d) ≠ BLACK := by
    intro hcon
    have hrun : hasRun5 b BLACK := by
      refine ⟨s - d, get_lt_of_ne_border hcon (by decide), d, hd, ?_⟩
      intro i hi
      cases i with
      | zero => simpa using hcon
      | succ j =>
        have e : s - d + (j + 1) * d = s + j * d := by
          have h4 : (j + 1) * d = j * d + d := by ring
          omega
        rw [e]
        exact hstones j (by omega)
    have := checkGameEnd_of_run5 hb hrun
    rw [hne] at this
    cases this
  -- one of the two probes is empty
  have hwin : b.get (s + d + d + d + d) = EMPTY ∨ b.get (s - d) = EMPTY := by
    rcases hx with heq | hxd
    · left
      have e : s + d + d + d + d = s + 4 * d := by ring
      rw [e, ← heq]
      exact hemp
    · right
      have e : s - d = x := by omega
      rw [e]
      exact hemp
  have hscen := dccPure_scenario hb h0 h1 h2 h3 hnb hwin
  -- the scanned stone list contains s, whose check_n contributes
  have hs_mem : s ∈ orderPts b BLACK := by
    unfold orderPts
    rw [if_neg (by decide : ¬(BLACK = 2))]
    unfold where1dEq
    apply List.mem_filter.mpr
    exact ⟨List.mem_range.mpr hs_stone.2, by simp [h0]⟩
  have hck : checkNPure b s 4 ≠ none := by
    unfold checkNPure
    rw [if_neg (checkNPureLoop_ne hscen.1 hscen.2 (dirsOf b) [] hd)]
    simp
  have hf4ne : passPure b 4 (orderPts b BLACK) [] ≠ [] :=
    passPure_ne (orderPts b BLACK) [] s hs_mem hck
  obtain ⟨m, t, hmt⟩ := List.exists_cons_of_ne_nil hf4ne
  have horder : ∀ q, q ∈ orderPts b BLACK → b.get q = BLACK := by
    intro q hq
    unfold orderPts at hq
    rw [if_neg (by decide : ¬(BLACK = 2))] at hq
    have := (List.mem_filter.mp hq).2
    simpa using this
  have hPm : completesFive b BLACK m := by
    refine passPure_completes hb (orderPts b BLACK) [] horder
      (fun w' hw' => absurd hw' (List.not_mem_nil w')) m ?_
    rw [hmt]
    exact List.mem_cons_self m t
  obtain ⟨rest, hrest⟩ := orderPure_head hmt
  -- the stateful scan returns exactly this move list
  obtain ⟨b1, he, hctx⟩ := order_the_point_spec hko hopen (SameCtx.refl b) BLACK
  have hm1 : b1.get m = EMPTY := by
    rw [hctx.get_eq m]
    exact hPm.1
  have hmlt : m < b1.board.length := by
    rw [hctx.2.1]
    exact get_lt_of_ne_border hPm.1 (by decide)
  -- placing the head move finishes the game
  have hplayne : ¬(b1.get m ≠ EMPTY) := by
    rw [hm1]
    simp
  have hb_eq : (playMoveGomoku b1 m BLACK).2.board = (placed b m BLACK).board := by
    unfold playMoveGomoku placed
    rw [if_neg hplayne]
    show b1.board.set m BLACK = b.board.set m BLACK
    rw [hctx.2.1]
  have hs_eq : (playMoveGomoku b1 m BLACK).2.size = (placed b m BLACK).size := by
    unfold playMoveGomoku placed
    rw [if_neg hplayne]
    exact hctx.1
  have hend : (checkGameEndGomoku (playMoveGomoku b1 m BLACK).2).1 = true := by
    rw [checkGameEnd_congr hb_eq hs_eq]
    exact checkGameEnd_of_run5 (WF_placed hb hPm.1) hPm.2
  refine ⟨m, undo (playMoveGomoku b1 m BLACK).2 m, ?_, ?_, hPm.1, hPm.2⟩
  · simp only [minimax]
    rw [if_neg (by rw [hne]; simp)]
    simp only [he]
    rw [if_neg (by rw [hrest]; simp), hrest]
    simp only [mmLoop]
    rw [if_pos ⟨hend, trivial⟩]
  · unfold undo playMoveGomoku
    rw [if_neg hplayne]
    show (b1.board.set m BLACK).set m EMPTY = b.board
    rw [List.set_set]
    have hm1' : b1.board.getD m BORDER = EMPTY := hm1
    rw [List.set_getD_self hm1' hmlt]
    exact hctx.2.1


/-- The 5×5 board with two parallel open black four-runs: row 1 and row 3,
columns 1–4. -/
def c2Board : SimpleGoBoard :=
  (playMoveGomoku (playMoveGomoku (playMoveGomoku (playMoveGomoku
   (playMoveGomoku (playMoveGomoku (playMoveGomoku (playMoveGomoku
    (resetBoard 5) (pt 5 1 1) BLACK).2 (pt 5 1 2) BLACK).2 (pt 5 1 3) BLACK).2
    (pt 5 1 4) BLACK).2 (pt 5 3 1) BLACK).2 (pt 5 3 2) BLACK).2
    (pt 5 3 3) BLACK).2 (pt 5 3 4) BLACK).2

/-- C2 as stated is false in its "returns THAT empty completing cell" part:
with two black four-runs on the board, the claim's hypotheses hold for the
row-3 run and its completing cell `pt 5 3 5`, yet `minimax` (under either
time verdict) returns the completing cell of the row-1 run, a different
point.  The win verdict itself, and that the returned cell completes a five,
are what survives — the amended theorem. -/
theorem minimax_open_four_counterexample :
    (checkGameEndGomoku c2Board).1 = false ∧
    (∀ i, i ≤ 3 → c2Board.get (pt 5 3 1 + i * 1) = BLACK) ∧
    c2Board.get (pt 5 3 1 + 4 * 1) = EMPTY ∧
    (∀ tl : Bool, (minimax tl 1 c2Board BLACK true).toOption.map (fun r => r.1) =
      some (MMStatus.win, Sum.inr (pt 5 1 5))) ∧
    pt 5 1 5 ≠ pt 5 3 1 + 4 * 1 := by
  decide

/-- The 5×5 board with a single open black four-run in row 2. -/
def c2Single : SimpleGoBoard :=
  (playMoveGomoku (playMoveGomoku (playMoveGomoku (playMoveGomoku
    (resetBoard 5) (pt 5 2 1) BLACK).2 (pt 5 2 2) BLACK).2 (pt 5 2 3) BLACK).2
    (pt 5 2 4) BLACK).2

/-- Witness for C2's amended theorem at a concrete input: the single
four-run board. -/
theorem minimax_wins_on_open_four_witness :
    ∃ m b', minimax false 1 c2Single BLACK true = .ok ((MMStatus.win, Sum.inr m), b') ∧
      b'.board = c2Single.board ∧ c2Single.get m = EMPTY ∧
      hasRun5 (placed c2Single m BLACK) BLACK :=
  minimax_wins_on_open_four false 1 (b := c2Single) (by decide) (by decide) (by decide)
    (by decide) (d := 1) (by decide) (s := pt 5 2 1) (by decide)
    (x := pt 5 2 1 + 4 * 1) (Or.inl rfl) (by decide) (by decide)


/-! ### The MCTS player (`MCTS.py`) for C7 and C8

State passing: the source only ever calls mutators on `.copy()` results, so
the caller's board is embedded by value and never part of any output — the
frame part of C7 is inherent in the embedding.  `random` draws are an oracle
`rng : Nat → Nat` with a threaded counter (`random.choice(l)` is
`l[rng k % len l]`).  The wall-clock condition `time.time() - start < 56` is
monotone — once false it stays false — so it is embedded as an iteration
budget: the check at outer iteration `i` holds iff `i < tBudget`.  One real
behavior is not modeled: `signal.alarm(55)` is armed with no SIGALRM handler
anywhere in the repository and the cancel (`signal.alarm(0)`) sits after the
`return` statement, unreachable, so the default disposition kills the whole
process at 55 s — before the 56 s loop condition can ever fail.  The
budget-exhaustion exit of `mctsLoop` below therefore does not occur when the
source runs; the theorems about the loop are stated as invariants holding at
every iteration (hence at every reachable exit: the board-full `break` and
the `except` handler), and none rests on that exit being taken. -/

/-- Python float value of a playout result: a nonnegative fraction or
`math.inf`.  `fin num den` stands for `num / den` with `den > 0` at every
use. -/
inductive PVal where
  | fin (num den : Nat)
  | inf
deriving Repr, DecidableEq

/-- Float `<` on these values by cross multiplication; `inf` is greater than
every fraction and not less than itself. -/
def PVal.lt : PVal → PVal → Bool
  | .fin a b, .fin c d => decide (a * d < c * b)
  | .fin _ _, .inf => true
  | .inf, _ => false

/-- Float division by an integer (`state.win / state.sim`). -/
def PVal.div : PVal → Nat → PVal
  | .fin a b, n => .fin a (b * n)
  | .inf, _ => .inf

/-- MCTS tree node: the `state` class of `MCTS.py` (counters, parent
signature, candidate move; the moves stored are always grid points). -/
structure NodeState where
  sim : Nat
  win : PVal
  first : List Nat
  move : Nat
deriving Repr, DecidableEq

/-- A board signature.  Modelled from the spec: `board_num` joins the digits
of `get_twoD_board` (missing `board_util.py`) into a string key; the string
of digits is embedded as the row-major list of the size×size playable-cell
contents. -/
abbrev Sig := List Nat

/-- The search session's dictionary `monte_tree`, in insertion order. -/
abbrev MTree := List (Sig × NodeState)

/-- `board_num(board)`: the signature of a board. -/
def board_num (b : SimpleGoBoard) : List Nat :=
  (List.range (b.size * b.size)).map
    (fun i => b.get (pt b.size (i / b.size + 1) (i % b.size + 1)))

/-- `monte_state_value == old` in `search2` compares a `state` object to a
string: Python equality between values of unrelated classes without `__eq__`
is identity, hence `False` on every call. -/
def stateEqSig : NodeState → Sig → Bool := fun _ _ => false

/-- `search2(tree, old)`: the keys whose value compares equal to `old` —
always none, by `stateEqSig`. -/
def search2 (tree : MTree) (old : Sig) : List Sig :=
  (tree.filter (fun kv => stateEqSig kv.2 old)).map Prod.fst

/-- Dictionary key test (`search in monte_tree`). -/
def hasKey (tree : MTree) (key : Sig) : Bool :=
  tree.any (fun kv => kv.1 == key)

/-- Dictionary assignment `monte_tree[key] = st`: replace in place or append. -/
def treeInsert : MTree → Sig → NodeState → MTree
  | [], key, st => [(key, st)]
  | (k0, s0) :: rest, key, st =>
    if k0 = key then (k0, st) :: rest else (k0, s0) :: treeInsert rest key st

/-- Modelled from the spec: `generate_random_move_gomoku` of the missing
`board_util.py` returns a uniformly random legal move, or PASS when none
exists.  The draw uses the oracle and advances the counter. -/
def randomMove (rng : Nat → Nat) (k : Nat) (b : SimpleGoBoard) : Option Nat × Nat :=
  if generate_legal_moves_gomoku b = [] then (none, k)
  else (some ((generate_legal_moves_gomoku b).getD
    (rng k % (generate_legal_moves_gomoku b).length) 0), k + 1)

/-- `sim(board, player1, player2)`: the recursive playout — 1 when the
finished game names `player1`, 0 on the other winner or on PASS.  Each
recursive step fills an empty cell, so the playout ends within the cell
count; the fuel at the call site is `board.length + 1` and never runs out
(the fuel-0 value is unreachable there). -/
def simPlayout (rng : Nat → Nat) : Nat → SimpleGoBoard → Nat → Nat → Nat → Nat × Nat
  | 0, _, _, _, k => (0, k)
  | fuel + 1, b, p1, p2, k =>
    if (checkGameEndGomoku b).1 then
      if (checkGameEndGomoku b).2 = some p1 then (1, k) else (0, k)
    else
      match randomMove rng k b with
      | (none, k1) => (0, k1)
      | (some mv, k1) => simPlayout rng fuel (playMoveGomoku b mv p2).2 p1 (opponent p2) k1

/-- The win/loss counting loop of `sim_do` (every playout returns 0 or 1, so
exactly one counter steps per iteration). -/
def simDoLoop (rng : Nat → Nat) : Nat → SimpleGoBoard → Nat → Nat → Nat → Nat →
    Nat × Nat × Nat
  | 0, _, _, k, wins, loss => (wins, loss, k)
  | n + 1, b, color, k, wins, loss =>
    match simPlayout rng (b.board.length + 1) b color color k with
    | (r, k1) =>
      simDoLoop rng n b color k1 (if r = 1 then wins + 1 else wins)
        (if r = 0 then loss + 1 else loss)

/-- `sim_do(board, simulation, color)`: `inf` on all-wins, the ratio when
`wins/loss > 1` (i.e. `wins > loss`; at the only call site
`simulation = 50 > 0` so `loss = 0` forces `wins > 0` and the division is
defined), else 0. -/
def sim_do (rng : Nat → Nat) (k : Nat) (b : SimpleGoBoard) (simulation color : Nat) :
    PVal × Nat :=
  match simDoLoop rng simulation b color k 0 0 with
  | (wins, loss, k1) =>
    if loss = 0 ∧ 0 < wins then (PVal.inf, k1)
    else if loss < wins then (PVal.fin wins loss, k1)
    else (PVal.fin 0 1, k1)

/-- The selection loop of `best_move`: strict improvement over a running
best ratio that starts at 0, among nodes whose parent is `top`. -/
def bestMoveLoop : MTree → Sig → PVal → Option Nat → Option Nat
  | [], _, _, bm => bm
  | (_, st) :: rest, top, br, bm =>
    if st.first = top then
      if PVal.lt br (PVal.div st.win st.sim) then
        bestMoveLoop rest top (PVal.div st.win st.sim) (some st.move)
      else bestMoveLoop rest top br bm
    else bestMoveLoop rest top br bm

/-- `best_move(board, tree, top)` (the board argument is unused in the
source too): `None` unless some ratio strictly exceeds 0. -/
def best_move (tree : MTree) (top : Sig) : Option Nat :=
  bestMoveLoop tree top (PVal.fin 0 1) none

/-- `BackProp(tree, first, stop, if_win)`: the walk from `first` towards
`stop`.  One execution of the body reads the attribute `simulation`, which
the node class does not define (its field is `sim`), so the walking arm
raises `AttributeError` and is embedded as `Except.error`; with
`first == stop` the loop body never runs and the tree is returned as found.
Every call in `Monte_Carlo_Tree` passes `first == first_copy` because
`first` is never reassigned after `first_copy = first`. -/
def BackProp (tree : MTree) (first stop : Sig) (if_win : Bool) :
    Except Unit MTree :=
  if first = stop then .ok tree else .error ()

/-- The inner `while search in monte_tree` loop.  On entry with the key
present, the body computes `move_lists = search2(monte_tree, first)`, always
`[]` (see `search2`), and breaks; were it nonempty, the next statement calls
`GetMAX`, an undefined name (the file defines `getMAX`), so that arm raises
`NameError` and is embedded as `Except.error` — the statements replaying
moves on `test` sit after it and are unreachable.  `search` is computed once
before the loop and never reassigned in the source, so it is a plain
parameter. -/
def descend (tree : MTree) (first search : Sig) : Except Unit Unit :=
  if hasKey tree search then
    if search2 tree first = [] then .ok () else .error ()
  else .ok ()

/-- `random.choice(all_moves)` five times (`for i in range(5)`). -/
def pick5 (rng : Nat → Nat) : Nat → Nat → List Nat → List Nat × Nat
  | 0, k, _ => ([], k)
  | n + 1, k, all =>
    match pick5 rng n (k + 1) all with
    | (l, k1) => (all.getD (rng k % all.length) 0 :: l, k1)

/-- The `for move in new_move` loop body of `Monte_Carlo_Tree`: evaluate the
candidate by 50 playouts, classify, `BackProp` (a no-op as called), insert
the node under the resulting board's signature. -/
def candLoop (rng : Nat → Nat) (root : SimpleGoBoard) (first firstCopy : Sig) :
    List Nat → Nat → MTree → Nat → Except Unit (MTree × Nat)
  | [], _, tree, k => .ok (tree, k)
  | move :: rest, p2, tree, k =>
    match sim_do rng k (playMoveGomoku root move p2).2 50 p2 with
    | (ending, k1) =>
      if PVal.lt (PVal.fin 0 1) ending ∧ ¬(p2 = opponent p2) then
        match BackProp tree first firstCopy true with
        | .error e => .error e
        | .ok tree1 =>
          candLoop rng root first firstCopy rest p2
            (treeInsert tree1 (board_num (playMoveGomoku root move p2).2)
              ⟨1, ending, first, move⟩) k1
      else
        match BackProp tree first firstCopy false with
        | .error e => .error e
        | .ok tree1 =>
          candLoop rng root first firstCopy rest p2
            (treeInsert tree1 (board_num (playMoveGomoku root move p2).2)
              ⟨1, PVal.fin 0 1, first, move⟩) k1

/-- The outer `while (time.time() - start) < 56` loop.  An error anywhere is
the raise of an exception; its payload records `start_move` and the draw
counter at the iteration entry, for the top-level handler.  The budget-0 arm
renders the loop condition failing and is present for totality only: in the
source the unhandled `signal.alarm(55)` kill precedes it (see the section
comment), so no theorem below depends on reaching it. -/
def mctsLoop (rng : Nat → Nat) (root : SimpleGoBoard) (first firstCopy : Sig) :
    Nat → Option Nat → Nat → List Nat → MTree → Nat →
      Except (Option Nat × Nat) (Option Nat × MTree)
  | 0, sm, _, _, tree, _ => .ok (sm, tree)
  | budget + 1, sm, p2, newMove, tree, k =>
    match sm with
    | none =>
      match candLoop rng root first firstCopy newMove p2 tree k with
      | .error _ => .error (sm, k)
      | .ok (tree1, k1) =>
        mctsLoop rng root first firstCopy budget (best_move tree1 firstCopy) p2
          newMove tree1 k1
    | some mv =>
      match descend tree first (board_num (playMoveGomoku root mv p2).2) with
      | .error _ => .error (sm, k)
      | .ok () =>
        if generate_legal_moves_gomoku (playMoveGomoku root mv p2).2 = [] then
          .ok (sm, tree)
        else
          match pick5 rng 5 k (generate_legal_moves_gomoku (playMoveGomoku root mv p2).2) with
          | (newMove1, k1) =>
            match candLoop rng root first firstCopy newMove1 (opponent p2) tree k1 with
            | .error _ => .error (sm, k1)
            | .ok (tree1, k2) =>
              mctsLoop rng root first firstCopy budget (best_move tree1 firstCopy)
                (opponent p2) newMove1 tree1 k2

/-- `Monte_Carlo_Tree(simple_board, player2)`: PASS (`None`) at once when no
legal move exists — a return that precedes the `try`/`signal.alarm` block —
otherwise the search loop, whose every exception the `except Exception`
handler converts into the current `start_move` if not `None`, else a random
legal move.  The exits the source can actually take are that immediate PASS,
the board-full `break` and the handler; the loop-condition exit is cut off
by the 55 s process kill (see the section comment). -/
def Monte_Carlo_Tree (rng : Nat → Nat) (tBudget : Nat) (b : SimpleGoBoard)
    (p2 : Nat) : Option Nat :=
  if generate_legal_moves_gomoku b = [] then none
  else
    match mctsLoop rng b (board_num b) (board_num b) tBudget none p2
      (generate_legal_moves_gomoku b) [] 0 with
    | .ok (sm, _) => sm
    | .error (sm, k) =>
      match sm with
      | some mv => some mv
      | none => (randomMove rng k b).1


theorem search2_nil (tree : MTree) (old : Sig) : search2 tree old = [] := by
  simp [search2, stateEqSig]

/-- The descend loop of `Monte_Carlo_Tree` always exits cleanly without
touching anything: the key test may pass, but `search2` is empty on every
call, so the first body iteration breaks (and the `GetMAX` arm is
unreachable). -/
theorem descend_ok (tree : MTree) (first search : Sig) :
    descend tree first search = .ok () := by
  simp [descend, search2_nil]

theorem BackProp_ok {tree tree1 : MTree} {first stop : Sig} {w : Bool}
    (h : BackProp tree first stop w = .ok tree1) : tree1 = tree := by
  unfold BackProp at h
  split at h
  · cases h
    rfl
  · cases h

theorem treeInsert_mem : ∀ (tree : MTree) (key : Sig) (st : NodeState)
    (kv : Sig × NodeState), kv ∈ treeInsert tree key st → kv ∈ tree ∨ kv = (key, st) := by
  intro tree
  induction tree with
  | nil =>
    intro key st kv h
    simp only [treeInsert] at h
    exact Or.inr (List.mem_singleton.mp h)
  | cons hd rest ih =>
    intro key st kv h
    obtain ⟨k0, s0⟩ := hd
    simp only [treeInsert] at h
    by_cases hk : k0 = key
    · rw [if_pos hk] at h
      rcases List.mem_cons.mp h with heq | hm
      · exact Or.inr (by rw [heq, hk])
      · exact Or.inl (List.mem_cons_of_mem _ hm)
    · rw [if_neg hk] at h
      rcases List.mem_cons.mp h with heq | hm
      · exact Or.inl (heq ▸ List.mem_cons_self _ _)
      · rcases ih key st kv hm with h1 | h1
        · exact Or.inl (List.mem_cons_of_mem _ h1)
        · exact Or.inr h1

theorem getD_mem_of_lt {l : List Nat} : ∀ {i : Nat}, i < l.length → ∀ d : Nat,
    l.getD i d ∈ l := by
  induction l with
  | nil => intro i h d; simp at h
  | cons a t ih =>
    intro i h d
    cases i with
    | zero => simp [List.getD]
    | succ n =>
      simp only [List.getD_cons_succ]
      exact List.mem_cons_of_mem a (ih (by simpa using h) d)

theorem pick5_mem (rng : Nat → Nat) {all : List Nat} (hall : all ≠ []) :
    ∀ (n k mv : Nat), mv ∈ (pick5 rng n k all).1 → mv ∈ all := by
  intro n
  induction n with
  | zero => intro k mv h; exact absurd h (List.not_mem_nil mv)
  | succ m ih =>
    intro k mv h
    simp only [pick5] at h
    rcases hres : pick5 rng m (k + 1) all with ⟨l, k1⟩
    rw [hres] at h
    rcases List.mem_cons.mp h with heq | hm
    · rw [heq]
      exact getD_mem_of_lt (Nat.mod_lt _ (List.length_pos.mpr hall)) 0
    · exact ih (k + 1) mv (by rw [hres]; exact hm)

theorem bestMoveLoop_mem (P : Option Nat → Prop) :
    ∀ (tree : MTree) (top : Sig) (br : PVal) (bm : Option Nat),
      (∀ kv, kv ∈ tree → P (some kv.2.move)) → P bm →
      P (bestMoveLoop tree top br bm) := by
  intro tree
  induction tree with
  | nil => intro top br bm _ hbm; exact hbm
  | cons hd rest ih =>
    intro top br bm htree hbm
    obtain ⟨k0, s0⟩ := hd
    simp only [bestMoveLoop]
    by_cases h1 : s0.first = top
    · rw [if_pos h1]
      by_cases h2 : PVal.lt br (PVal.div s0.win s0.sim) = true
      · rw [if_pos h2]
        exact ih top _ _ (fun kv hkv => htree kv (List.mem_cons_of_mem _ hkv))
          (htree (k0, s0) (List.mem_cons_self _ _))
      · rw [if_neg h2]
        exact ih top br bm (fun kv hkv => htree kv (List.mem_cons_of_mem _ hkv)) hbm
    · rw [if_neg h1]
      exact ih top br bm (fun kv hkv => htree kv (List.mem_cons_of_mem _ hkv)) hbm

/-- Nodes inserted by the candidate loop all have `sim = 1`, `first` = the
loop's `first` argument, and a move drawn from its move list: any predicate
holding of such states and of the entering tree holds of the resulting
tree. -/
theorem candLoop_inv (rng : Nat → Nat) (root : SimpleGoBoard) (first firstCopy : Sig)
    (P : NodeState → Prop) :
    ∀ (moves : List Nat) (p2 : Nat) (tree : MTree) (k : Nat),
      (∀ mv, mv ∈ moves → ∀ v, P ⟨1, v, first, mv⟩) →
      (∀ kv, kv ∈ tree → P kv.2) →
      ∀ r, candLoop rng root first firstCopy moves p2 tree k = .ok r →
        ∀ kv, kv ∈ r.1 → P kv.2 := by
  intro moves
  induction moves with
  | nil =>
    intro p2 tree k _ htree r hr kv hkv
    simp only [candLoop] at hr
    cases hr
    exact htree kv hkv
  | cons move rest ih =>
    intro p2 tree k hmv htree r hr kv hkv
    simp only [candLoop] at hr
    rcases hsd : sim_do rng k (playMoveGomoku root move p2).2 50 p2 with ⟨ending, k1⟩
    rw [hsd] at hr
    by_cases hcond : PVal.lt (PVal.fin 0 1) ending = true ∧ ¬(p2 = opponent p2)
    · rw [if_pos hcond] at hr
      cases hbp : BackProp tree first firstCopy true with
      | error e => rw [hbp] at hr; cases hr
      | ok tree1 =>
        rw [hbp] at hr
        refine ih p2 _ k1 (fun mv hm v => hmv mv (List.mem_cons_of_mem _ hm) v) ?_ r hr kv hkv
        intro kv1 hkv1
        rcases treeInsert_mem _ _ _ kv1 hkv1 with h1 | h1
        · rw [BackProp_ok hbp] at h1
          exact htree kv1 h1
        · rw [h1]
          exact hmv move (List.mem_cons_self _ _) ending
    · rw [if_neg hcond] at hr
      cases hbp : BackProp tree first firstCopy false with
      | error e => rw [hbp] at hr; cases hr
      | ok tree1 =>
        rw [hbp] at hr
        refine ih p2 _ k1 (fun mv hm v => hmv mv (List.mem_cons_of_mem _ hm) v) ?_ r hr kv hkv
        intro kv1 hkv1
        rcases treeInsert_mem _ _ _ kv1 hkv1 with h1 | h1
        · rw [BackProp_ok hbp] at h1
          exact htree kv1 h1
        · rw [h1]
          exact hmv move (List.mem_cons_self _ _) (PVal.fin 0 1)

/-- Playing a move never creates a new empty cell: legal moves after the
play are legal moves of the original board. -/
theorem empties_play_subset (b : SimpleGoBoard) (mv c : Nat) :
    ∀ q, q ∈ generate_legal_moves_gomoku (playMoveGomoku b mv c).2 →
      q ∈ generate_legal_moves_gomoku b := by
  intro q hq
  unfold playMoveGomoku at hq
  by_cases hocc : b.get mv ≠ EMPTY
  · rw [if_pos hocc] at hq
    exact hq
  · rw [if_neg hocc] at hq
    push_neg at hocc
    unfold generate_legal_moves_gomoku get_empty_points where1dEq at hq ⊢
    have hmem := List.mem_filter.mp hq
    have hq1 : q < (b.board.set mv c).length := List.mem_range.mp hmem.1
    have hq2 : ((b.board.set mv c).getD q BORDER == EMPTY) = true := hmem.2
    have hlen : (b.board.set mv c).length = b.board.length := List.length_set b.board mv c
    apply List.mem_filter.mpr
    refine ⟨List.mem_range.mpr (by omega), ?_⟩
    by_cases hqmv : q = mv
    · subst hqmv
      simp [hocc]
    · rw [getD_set_ne c BORDER (by omega)] at hq2
      exact hq2

/-- Tree-shape invariant of the whole search loop, for any property holding
of every inserted node. -/
theorem mctsLoop_tree_inv (rng : Nat → Nat) (b : SimpleGoBoard) (first firstCopy : Sig)
    (P : NodeState → Prop) (hP : ∀ (v : PVal) (f : Sig) (mv : Nat), P ⟨1, v, f, mv⟩) :
    ∀ (budget : Nat) (sm : Option Nat) (p2 : Nat) (newMove : List Nat)
      (tree : MTree) (k : Nat),
      (∀ kv, kv ∈ tree → P kv.2) →
      ∀ sm' tree', mctsLoop rng b first firstCopy budget sm p2 newMove tree k =
        .ok (sm', tree') → ∀ kv, kv ∈ tree' → P kv.2 := by
  intro budget
  induction budget with
  | zero =>
    intro sm p2 newMove tree k htree sm' tree' h kv hkv
    simp only [mctsLoop] at h
    cases h
    exact htree kv hkv
  | succ bud ih =>
    intro sm p2 newMove tree k htree sm' tree' h kv hkv
    cases sm with
    | none =>
      simp only [mctsLoop] at h
      cases hcl : candLoop rng b first firstCopy newMove p2 tree k with
      | error e => rw [hcl] at h; cases h
      | ok r =>
        obtain ⟨tree1, k1⟩ := r
        simp only [hcl] at h
        have htree1 : ∀ kv1, kv1 ∈ tree1 → P kv1.2 :=
          fun kv1 hkv1 => candLoop_inv rng b first firstCopy P newMove p2 tree k
            (fun mv hm v => hP v first mv) htree (tree1, k1) hcl kv1 hkv1
        exact ih _ p2 newMove tree1 k1 htree1 sm' tree' h kv hkv
    | some mv =>
      simp only [mctsLoop, descend_ok] at h
      by_cases hleg : generate_legal_moves_gomoku (playMoveGomoku b mv p2).2 = []
      · rw [if_pos hleg] at h
        cases h
        exact htree kv hkv
      · rw [if_neg hleg] at h
        rcases hp5 : pick5 rng 5 k
          (generate_legal_moves_gomoku (playMoveGomoku b mv p2).2) with ⟨newMove1, k1⟩
        simp only [hp5] at h
        cases hcl : candLoop rng b first firstCopy newMove1 (opponent p2) tree k1 with
        | error e => rw [hcl] at h; cases h
        | ok r =>
          obtain ⟨tree1, k2⟩ := r
          simp only [hcl] at h
          have htree1 : ∀ kv1, kv1 ∈ tree1 → P kv1.2 :=
            fun kv1 hkv1 => candLoop_inv rng b first firstCopy P newMove1 (opponent p2)
              tree k1 (fun mv1 hm v => hP v first mv1) htree (tree1, k2) hcl kv1 hkv1
          exact ih _ (opponent p2) newMove1 tree1 k2 htree1 sm' tree' h kv hkv

/-- Move-legality invariant of the whole search loop: whatever `start_move`
it ends with — normally or by raising — is an empty cell of the caller's
board whenever it is a point at all. -/
theorem mctsLoop_mem_inv (rng : Nat → Nat) (b : SimpleGoBoard) (first firstCopy : Sig) :
    ∀ (budget : Nat) (sm : Option Nat) (p2 : Nat) (newMove : List Nat)
      (tree : MTree) (k : Nat),
      (∀ x, sm = some x → x ∈ generate_legal_moves_gomoku b) →
      (∀ mv, mv ∈ newMove → mv ∈ generate_legal_moves_gomoku b) →
      (∀ kv, kv ∈ tree → kv.2.move ∈ generate_legal_moves_gomoku b) →
      (∀ sm' tree', mctsLoop rng b first firstCopy budget sm p2 newMove tree k =
          .ok (sm', tree') → ∀ x, sm' = some x → x ∈ generate_legal_moves_gomoku b) ∧
      (∀ sm' k', mctsLoop rng b first firstCopy budget sm p2 newMove tree k =
          .error (sm', k') → ∀ x, sm' = some x → x ∈ generate_legal_moves_gomoku b) := by
  intro budget
  induction budget with
  | zero =>
    intro sm p2 newMove tree k hsm hnm htree
    constructor
    · intro sm' tree' h x hx
      simp only [mctsLoop] at h
      cases h
      exact hsm x hx
    · intro sm' k' h
      simp only [mctsLoop] at h
      cases h
  | succ bud ih =>
    intro sm p2 newMove tree k hsm hnm htree
    cases sm with
    | none =>
      constructor
      · intro sm' tree' h x hx
        simp only [mctsLoop] at h
        cases hcl : candLoop rng b first firstCopy newMove p2 tree k with
        | error e => rw [hcl] at h; cases h
        | ok r =>
          obtain ⟨tree1, k1⟩ := r
          simp only [hcl] at h
          have htree1 : ∀ kv1, kv1 ∈ tree1 → kv1.2.move ∈ generate_legal_moves_gomoku b :=
            fun kv1 hkv1 => candLoop_inv rng b first firstCopy
              (fun st => st.move ∈ generate_legal_moves_gomoku b) newMove p2 tree k
              (fun mv hm v => hnm mv hm) htree (tree1, k1) hcl kv1 hkv1
          have hbm : ∀ x1, best_move tree1 firstCopy = some x1 →
              x1 ∈ generate_legal_moves_gomoku b := by
            intro x1 hx1
            refine bestMoveLoop_mem
              (fun o => ∀ x2, o = some x2 → x2 ∈ generate_legal_moves_gomoku b)
              tree1 firstCopy (PVal.fin 0 1) none ?_ ?_ x1 hx1
            · intro kv1 hkv1 x2 he
              cases he
              exact htree1 kv1 hkv1
            · intro x2 he
              cases he
          exact (ih (best_move tree1 firstCopy) p2 newMove tree1 k1 hbm hnm htree1).1
            sm' tree' h x hx
      · intro sm' k' h x hx
        simp only [mctsLoop] at h
        cases hcl : candLoop rng b first firstCopy newMove p2 tree k with
        | error e =>
          rw [hcl] at h
          cases h
          cases hx
        | ok r =>
          obtain ⟨tree1, k1⟩ := r
          simp only [hcl] at h
          have htree1 : ∀ kv1, kv1 ∈ tree1 → kv1.2.move ∈ generate_legal_moves_gomoku b :=
            fun kv1 hkv1 => candLoop_inv rng b first firstCopy
              (fun st => st.move ∈ generate_legal_moves_gomoku b) newMove p2 tree k
              (fun mv hm v => hnm mv hm) htree (tree1, k1) hcl kv1 hkv1
          have hbm : ∀ x1, best_move tree1 firstCopy = some x1 →
              x1 ∈ generate_legal_moves_gomoku b := by
            intro x1 hx1
            refine bestMoveLoop_mem
              (fun o => ∀ x2, o = some x2 → x2 ∈ generate_legal_moves_gomoku b)
              tree1 firstCopy (PVal.fin 0 1) none ?_ ?_ x1 hx1
            · intro kv1 hkv1 x2 he
              cases he
              exact htree1 kv1 hkv1
            · intro x2 he
              cases he
          exact (ih (best_move tree1 firstCopy) p2 newMove tree1 k1 hbm hnm htree1).2
            sm' k' h x hx
    | some mv =>
      constructor
      · intro sm' tree' h x hx
        simp only [mctsLoop, descend_ok] at h
        by_cases hleg : generate_legal_moves_gomoku (playMoveGomoku b mv p2).2 = []
        · rw [if_pos hleg] at h
          cases h
          exact hsm x hx
        · rw [if_neg hleg] at h
          rcases hp5 : pick5 rng 5 k
            (generate_legal_moves_gomoku (playMoveGomoku b mv p2).2) with ⟨newMove1, k1⟩
          simp only [hp5] at h
          have hnm1 : ∀ mv1, mv1 ∈ newMove1 → mv1 ∈ generate_legal_moves_gomoku b := by
            intro mv1 hm
            refine empties_play_subset b mv p2 mv1 (pick5_mem rng hleg 5 k mv1 ?_)
            rw [hp5]
            exact hm
          cases hcl : candLoop rng b first firstCopy newMove1 (opponent p2) tree k1 with
          | error e => rw [hcl] at h; cases h
          | ok r =>
            obtain ⟨tree1, k2⟩ := r
            simp only [hcl] at h
            have htree1 : ∀ kv1, kv1 ∈ tree1 →
                kv1.2.move ∈ generate_legal_moves_gomoku b :=
              fun kv1 hkv1 => candLoop_inv rng b first firstCopy
                (fun st => st.move ∈ generate_legal_moves_gomoku b) newMove1 (opponent p2)
                tree k1 (fun mv1 hm v => hnm1 mv1 hm) htree (tree1, k2) hcl kv1 hkv1
            have hbm : ∀ x1, best_move tree1 firstCopy = some x1 →
                x1 ∈ generate_legal_moves_gomoku b := by
              intro x1 hx1
              refine bestMoveLoop_mem
                (fun o => ∀ x2, o = some x2 → x2 ∈ generate_legal_moves_gomoku b)
                tree1 firstCopy (PVal.fin 0 1) none ?_ ?_ x1 hx1
              · intro kv1 hkv1 x2 he
                cases he
                exact htree1 kv1 hkv1
              · intro x2 he
                cases he
            exact (ih (best_move tree1 firstCopy) (opponent p2) newMove1 tree1 k2
              hbm hnm1 htree1).1 sm' tree' h x hx
      · intro sm' k' h x hx
        simp only [mctsLoop, descend_ok] at h
        by_cases hleg : generate_legal_moves_gomoku (playMoveGomoku b mv p2).2 = []
        · rw [if_pos hleg] at h
          cases h
        · rw [if_neg hleg] at h
          rcases hp5 : pick5 rng 5 k
            (generate_legal_moves_gomoku (playMoveGomoku b mv p2).2) with ⟨newMove1, k1⟩
          simp only [hp5] at h
          have hnm1 : ∀ mv1, mv1 ∈ newMove1 → mv1 ∈ generate_legal_moves_gomoku b := by
            intro mv1 hm
            refine empties_play_subset b mv p2 mv1 (pick5_mem rng hleg 5 k mv1 ?_)
            rw [hp5]
            exact hm
          cases hcl : candLoop rng b first firstCopy newMove1 (opponent p2) tree k1 with
          | error e =>
            rw [hcl] at h
            cases h
            exact hsm x hx
          | ok r =>
            obtain ⟨tree1, k2⟩ := r
            simp only [hcl] at h
            have htree1 : ∀ kv1, kv1 ∈ tree1 →
                kv1.2.move ∈ generate_legal_moves_gomoku b :=
              fun kv1 hkv1 => candLoop_inv rng b first firstCopy
                (fun st => st.move ∈ generate_legal_moves_gomoku b) newMove1 (opponent p2)
                tree k1 (fun mv1 hm v => hnm1 mv1 hm) htree (tree1, k2) hcl kv1 hkv1
            have hbm : ∀ x1, best_move tree1 firstCopy = some x1 →
                x1 ∈ generate_legal_moves_gomoku b := by
              intro x1 hx1
              refine bestMoveLoop_mem
                (fun o => ∀ x2, o = some x2 → x2 ∈ generate_legal_moves_gomoku b)
                tree1 firstCopy (PVal.fin 0 1) none ?_ ?_ x1 hx1
              · intro kv1 hkv1 x2 he
                cases he
                exact htree1 kv1 hkv1
              · intro x2 he
                cases he
            exact (ih (best_move tree1 firstCopy) (opponent p2) newMove1 tree1 k2
              hbm hnm1 htree1).2 sm' k' h x hx


/-- C7, the part the code delivers: `Monte_Carlo_Tree` returns PASS at once
when no legal move exists (that return precedes the `try`/`signal.alarm`
block), and any point it hands back through any exit of the search — the
board-full `break`, the exception handler's `start_move` or random fallback,
or the loop-condition exit that the 55 s process kill makes unreachable in
the source — is a legal (empty) cell of the caller's board; the caller's
board itself is untouched (the source only mutates `.copy()` results, so the
embedding is a pure function of the board).  These are invariants of every
loop iteration, so the unmodeled kill cannot invalidate them.  The claim's
graceful-return guarantee itself is what fails in the source: the unhandled,
never-cancelled alarm terminates the process before the 56 s condition can
fail, so a call that neither breaks nor raises never returns at all. -/
theorem monte_carlo_moves_legal (rng : Nat → Nat) (tBudget : Nat) (b : SimpleGoBoard)
    (p2 : Nat) :
    (generate_legal_moves_gomoku b = [] → Monte_Carlo_Tree rng tBudget b p2 = none) ∧
    (∀ x, Monte_Carlo_Tree rng tBudget b p2 = some x →
      x ∈ generate_legal_moves_gomoku b) := by
  constructor
  · intro hleg
    unfold Monte_Carlo_Tree
    rw [if_pos hleg]
  · intro x hx
    unfold Monte_Carlo_Tree at hx
    by_cases hleg : generate_legal_moves_gomoku b = []
    · rw [if_pos hleg] at hx
      cases hx
    · rw [if_neg hleg] at hx
      have hinv := mctsLoop_mem_inv rng b (board_num b) (board_num b) tBudget none p2
        (generate_legal_moves_gomoku b) [] 0 (fun x1 hx1 => by cases hx1)
        (fun mv hm => hm) (fun kv hkv => absurd hkv (List.not_mem_nil kv))
      cases hres : mctsLoop rng b (board_num b) (board_num b) tBudget none p2
          (generate_legal_moves_gomoku b) [] 0 with
      | ok r =>
        obtain ⟨sm, tree⟩ := r
        simp only [hres] at hx
        exact hinv.1 sm tree hres x hx
      | error e =>
        obtain ⟨sm, k⟩ := e
        simp only [hres] at hx
        cases sm with
        | some mv => exact hinv.2 (some mv) k hres x hx
        | none =>
          have hx1 : (randomMove rng k b).1 = some x := hx
          unfold randomMove at hx1
          rw [if_neg hleg] at hx1
          have hx2 : some ((generate_legal_moves_gomoku b).getD
              (rng k % (generate_legal_moves_gomoku b).length) 0) = some x := hx1
          cases hx2
          exact getD_mem_of_lt (Nat.mod_lt _ (List.length_pos.mpr hleg)) 0

/-- The full 2×2 board, for the witness's no-legal-moves case. -/
def c7Full : SimpleGoBoard :=
  (playMoveGomoku (playMoveGomoku (playMoveGomoku (playMoveGomoku
    (resetBoard 2) (pt 2 1 1) BLACK).2 (pt 2 1 2) WHITE).2 (pt 2 2 1) WHITE).2
    (pt 2 2 2) BLACK).2

/-- Witness for C7's theorem at a concrete input: on the full 2×2 board the
search immediately returns PASS. -/
theorem monte_carlo_moves_legal_witness :
    Monte_Carlo_Tree (fun _ => 0) 1 c7Full WHITE = none :=
  (monte_carlo_moves_legal (fun _ => 0) 1 c7Full WHITE).1 (by decide)

/-- C8: the claimed backpropagation never happens.  `first` is never
reassigned after `first_copy = first`, so every `BackProp` call receives
`first == stop`, the walk condition fails at once, and the call returns the
tree exactly as found (had the body run once it would crash reading the
attribute `simulation`, which the node class does not define — its field is
`sim`).  Consequently no counter of any ancestor is ever incremented: every
node of every tree reachable by the search loop still carries its inserted
`sim = 1`. -/
theorem backprop_never_increments (rng : Nat → Nat) (root : SimpleGoBoard)
    (first firstCopy : Sig) (budget : Nat) (sm : Option Nat) (p2 : Nat)
    (newMove : List Nat) (tree : MTree) (k : Nat)
    (htree : ∀ kv, kv ∈ tree → kv.2.sim = 1) :
    (∀ (t : MTree) (f : Sig) (w : Bool), BackProp t f f w = .ok t) ∧
    (∀ sm' tree', mctsLoop rng root first firstCopy budget sm p2 newMove tree k =
        .ok (sm', tree') → ∀ kv, kv ∈ tree' → kv.2.sim = 1) := by
  constructor
  · intro t f w
    unfold BackProp
    rw [if_pos rfl]
  · exact mctsLoop_tree_inv rng root first firstCopy (fun st => st.sim = 1)
      (fun v f mv => rfl) budget sm p2 newMove tree k htree

/-- Witness for C8's theorem at a concrete input: a full search iteration on
the empty 2×2 board starting from the empty tree. -/
theorem backprop_never_increments_witness :
    (∀ (t : MTree) (f : Sig) (w : Bool), BackProp t f f w = .ok t) ∧
    (∀ sm' tree', mctsLoop (fun _ => 0) (resetBoard 2) (board_num (resetBoard 2))
        (board_num (resetBoard 2)) 1 none WHITE
        (generate_legal_moves_gomoku (resetBoard 2)) [] 0 = .ok (sm', tree') →
      ∀ kv, kv ∈ tree' → kv.2.sim = 1) :=
  backprop_never_increments (fun _ => 0) (resetBoard 2) (board_num (resetBoard 2))
    (board_num (resetBoard 2)) 1 none WHITE
    (generate_legal_moves_gomoku (resetBoard 2)) [] 0
    (fun kv hkv => absurd hkv (List.not_mem_nil kv))

end Gomoku
